import Mathlib

/-!
Verification of the TriteDB trie engine and TTL subsystem.

This file gives a shallow embedding, in Lean, of the parts of the
codepr/tritedb sources that the checked claims are about:

* `src/trie.c`  — the character-indexed trie with per-leaf items
  (insert, find, delete, prefix delete / set / inc / dec / enumerate);
* `src/list.c`  — the sorted child lists (`linear_search`,
  `merge_sort_tnode`);
* `src/util.c`  — `is_integer`, `parse_int`;
* `src/server.c` — the handlers `get_handler`, `ttl_handler`,
  `del_handler`, `put_data_into_trie`, the comparator `compare_ttl`
  and the background sweep `expire_keys`.

Modelling conventions.

* C strings (keys, values) are lists of byte values (`List Nat`,
  each element `< 256`, and, being C strings, nonzero).  The C type
  `char` is signed on the reference platform (x86-64 Linux/gcc): the
  function `sgn` below gives the signed value of a stored byte, and is
  used exactly where the C code compares `char`s.
* Machine integers are modelled as `Int`/`Nat` with explicit wrapping
  (`% 2 ^ 64` for `uint64_t` arithmetic, explicit `int16` wrap for the
  `int16_t` ttl field) at the points where the C code can wrap.
* `time(NULL)` is passed in explicitly as a `now : Int` parameter.
* Heap mutation through pointers is modelled by rebuilding the tree
  along the mutated path; each such spot is documented at the
  definition that does it.
-/

namespace Tritedb

/-- Signed value of a stored byte: C `char` is signed on the reference
platform, so byte `b` (0 ≤ b < 256) is read back as `b` if `b < 128`
and as `b - 256` otherwise. -/
def sgn (b : Nat) : Int :=
  if b < 128 then (b : Int) else (b : Int) - 256

/-- Valid C-string bytes: nonzero (a zero byte terminates a C string)
and below 256. -/
def validKey (k : List Nat) : Bool :=
  k.all fun b => 0 < b && b < 256

/-- NOTTL sentinel.  Modelled from the spec: `trie.h` (which defines
`NOTTL`) is not under `src/`; the spec's data model says the no-TTL
sentinel is distinguishable and its end-to-end scenario shows `GET`
returning `ttl=-1` for a key stored without TTL, and the code always
uses the constant negated (`-NOTTL`), so `NOTTL = 1`. -/
def NOTTL : Int := 1

/-- Wrap an `Int` to the value range of C `int16_t` (the type of the
`ttl` field of `struct node_data`), as gcc does on assignment. -/
def toInt16 (x : Int) : Int :=
  (x + 2 ^ 15) % 2 ^ 16 - 2 ^ 15

/-- Item payload: `struct node_data` of `trie.h` with fields
`data` (byte string), `ttl` (`int16_t`), `ctime`/`latime`
(`uint64_t` epoch seconds). -/
structure NodeData where
  data : List Nat
  ttl : Int
  ctime : Int
  latime : Int
deriving DecidableEq, Repr

/-- Trie node: `struct trie_node` with fields `chr` (one key byte),
`ndata` (optional item) and `children` (list of child nodes, kept
sorted by `chr`). -/
inductive TrieNode : Type where
  | node (chr : Nat) (ndata : Option NodeData) (children : List TrieNode)
deriving Repr

def TrieNode.chr : TrieNode → Nat
  | .node c _ _ => c

def TrieNode.ndata : TrieNode → Option NodeData
  | .node _ nd _ => nd

def TrieNode.children : TrieNode → List TrieNode
  | .node _ _ ch => ch

/-- Induction over `TrieNode` that provides the inductive hypothesis
for every member of the children list. -/
theorem TrieNode.recMem {P : TrieNode → Prop}
    (h : ∀ c nd ch, (∀ t ∈ ch, P t) → P (.node c nd ch)) :
    ∀ t, P t
  | .node c nd ch =>
    h c nd ch fun t ht =>
      have : sizeOf t < sizeOf (TrieNode.node c nd ch) := by
        have h1 : sizeOf t < sizeOf ch := List.sizeOf_lt_of_mem ht
        simp only [TrieNode.node.sizeOf_spec]
        omega
      TrieNode.recMem h t
termination_by t => sizeOf t

/-- The `Trie` handle of `trie.h`: a root node (created with
`chr = ' '`) and a stored size counter. -/
structure Trie where
  root : TrieNode
  size : Nat
deriving Repr

/-- trie_create of trie.c: root node with `chr = ' '` (byte 32),
size 0. -/
def trieCreate : Trie :=
  { root := .node 32 none [], size := 0 }

/-- linear_search of list.c, searching a children list for a node
whose `chr` equals `value` (both compared as signed `char` promoted to
`int`); the scan breaks early as soon as it sees a `chr` greater than
`value`. -/
def linearSearch : List TrieNode → Int → Option TrieNode
  | [], _ => none
  | t :: ts, v =>
    if sgn t.chr = v then some t
    else if sgn t.chr > v then none
    else linearSearch ts v

/-- merge_tnode_list of list.c: merge two children lists comparing
the `chr` fields as signed `char`s; ties take from the first list.
The recursion is bounded by an explicit fuel so that the definition
computes by structural recursion; `mergeTnode` below supplies fuel
equal to the combined length, which the merge never exceeds (each
step consumes one element). -/
def mergeTnodeF : Nat → List TrieNode → List TrieNode → List TrieNode
  | 0, l1, l2 => l1 ++ l2
  | _ + 1, [], l2 => l2
  | _ + 1, l1, [] => l1
  | f + 1, t1 :: ts1, t2 :: ts2 =>
    if sgn t1.chr ≤ sgn t2.chr then t1 :: mergeTnodeF f ts1 (t2 :: ts2)
    else t2 :: mergeTnodeF f (t1 :: ts1) ts2

/-- merge_tnode_list of list.c (see `mergeTnodeF`). -/
def mergeTnode (l1 l2 : List TrieNode) : List TrieNode :=
  mergeTnodeF (l1.length + l2.length) l1 l2

/-- merge_sort_tnode of list.c: lists of length ≤ 1 are returned as
is; otherwise `bisect_list` splits the list at index ⌊n/2⌋ (the
fast/slow pointer walk truncates before the slow pointer, which stops
at index ⌊n/2⌋) and the halves are sorted and merged.  The recursion
is bounded by an explicit fuel (structural, so the definition
computes); `mergeSortTnode` supplies fuel equal to the length, which
the recursion depth never exceeds (each half is strictly shorter). -/
def mergeSortTnodeF : Nat → List TrieNode → List TrieNode
  | 0, l => l
  | f + 1, l =>
    if l.length ≤ 1 then l
    else
      mergeTnode (mergeSortTnodeF f (l.take (l.length / 2)))
        (mergeSortTnodeF f (l.drop (l.length / 2)))

/-- merge_sort_tnode of list.c (see `mergeSortTnodeF`). -/
def mergeSortTnode (l : List TrieNode) : List TrieNode :=
  mergeSortTnodeF l.length l

/-- trie_node_find of trie.c: walk one child per byte of the key,
via `linear_search` (the byte is passed promoted to `int`, hence
`sgn`). -/
def trieNodeFind : TrieNode → List Nat → Option TrieNode
  | n, [] => some n
  | n, b :: bs =>
    match linearSearch n.children (sgn b) with
    | none => none
    | some c => trieNodeFind c bs

/-- Replace the first child whose `chr` equals `b`.  This models the
in-place mutation of the child the C code reached through the
`list_node` returned by `linear_search`: when `linear_search`
succeeds, the node it returns is the first one in the list whose `chr`
equals the searched byte (an equal node hidden behind a greater one
would have made the search return NULL instead). -/
def replaceFirst : List TrieNode → Nat → TrieNode → List TrieNode
  | [], _, _ => []
  | t :: ts, b, t' =>
    if t.chr = b then t' :: ts else t :: replaceFirst ts b t'

/-- trie_node_insert of trie.c.  Walks the key; on a missing child it
creates a fresh node, pushes it at the front of the children list and
re-sorts the list with `merge_sort_tnode`, then descends into the new
node.  The C fills the new node in place after it is already linked
into the sorted list; since the sort inspects only the `chr` fields,
which never change, sorting the finished subtree into the list gives
the same tree.  At the terminal node the item is allocated (size+1) or
its data replaced in place (size unchanged), and
`ttl := -NOTTL`, `ctime := latime := now`.
Returns (new subtree, new size, the node_data the C returns). -/
def trieNodeInsert (now : Int) :
    TrieNode → List Nat → List Nat → Nat → TrieNode × Nat × NodeData
  | .node c nd ch, [], v, size =>
    let nd' : NodeData := ⟨v, -NOTTL, now, now⟩
    match nd with
    | some _ => (.node c (some nd') ch, size, nd')
    | none => (.node c (some nd') ch, size + 1, nd')
  | .node c nd ch, b :: bs, v, size =>
    match linearSearch ch (sgn b) with
    | some child =>
      let r := trieNodeInsert now child bs v size
      (.node c nd (replaceFirst ch b r.1), r.2.1, r.2.2)
    | none =>
      let r := trieNodeInsert now (.node b none []) bs v size
      (.node c nd (mergeSortTnode (r.1 :: ch)), r.2.1, r.2.2)

/-- trie_insert of trie.c. -/
def trieInsert (t : Trie) (key v : List Nat) (now : Int) :
    Trie × NodeData :=
  let r := trieNodeInsert now t.root key v t.size
  ({ root := r.1, size := r.2.1 }, r.2.2)

/-- trie_node_search / trie_find of trie.c: the out-parameter is the
terminal node's item, or NULL when the node path or the item is
missing. -/
def trieFind (t : Trie) (key : List Nat) : Option NodeData :=
  match trieNodeFind t.root key with
  | none => none
  | some n => n.ndata

/-- A key is present when `trie_find` yields an item for it. -/
def present (t : Trie) (key : List Nat) : Bool :=
  (trieFind t key).isSome

/-- Item stored in a subtree for a key (monadic form of `trieFind`,
convenient in proofs). -/
def findData (n : TrieNode) (k : List Nat) : Option NodeData :=
  (trieNodeFind n k).bind TrieNode.ndata

/-- Remove the first child whose `chr` equals `b`: `list_remove` with
the `with_char` comparator removes the first matching node only
(`list_node_remove` returns without recursing once it removed one). -/
def removeFirstChr : List TrieNode → Nat → List TrieNode
  | [], _ => []
  | t :: ts, b =>
    if t.chr = b then ts else t :: removeFirstChr ts b

/-- trie_node_recursive_delete of trie.c.  Returns
(new subtree, new size, found flag, prune flag): the prune flag is the
C return value telling the caller to unlink this child.  At the
terminal, an existing item is removed (`size` is decremented with a
`> 0` guard, hence the `Nat` monus) and the node reports prunable iff
it has no children; a terminal without an item falls through to
`return false`.  On the way up, a prunable child is removed from the
children list and the node reports prunable iff it has no item and no
remaining children. -/
def trieNodeRecDelete :
    TrieNode → List Nat → Nat → TrieNode × Nat × Bool × Bool
  | .node c nd ch, [], size =>
    match nd with
    | some _ => (.node c none ch, size - 1, true, ch.isEmpty)
    | none => (.node c nd ch, size, false, false)
  | .node c nd ch, b :: bs, size =>
    match linearSearch ch (sgn b) with
    | none => (.node c nd ch, size, false, false)
    | some child =>
      let r := trieNodeRecDelete child bs size
      if r.2.2.2 then
        let ch' := removeFirstChr ch b
        (.node c nd ch', r.2.1, r.2.2.1, nd.isNone && ch'.isEmpty)
      else
        (.node c nd (replaceFirst ch b r.1), r.2.1, r.2.2.1, false)

/-- trie_delete of trie.c: empty keys are rejected by the
`strlen(key) > 0` guard (found stays false, nothing is touched). -/
def trieDelete (t : Trie) (key : List Nat) : Trie × Bool :=
  match key with
  | [] => (t, false)
  | _ =>
    let r := trieNodeRecDelete t.root key t.size
    ({ root := r.1, size := r.2.1 }, r.2.2.1)

mutual
/-- trie_node_free of trie.c, size effect only: frees the subtree,
decrementing `size` once per node that carries an item (each decrement
guarded by `*size > 0`, hence monus). -/
def trieNodeFreeSize : TrieNode → Nat → Nat
  | .node _ nd ch, size =>
    let s1 := trieNodeFreeSizeL ch size
    match nd with
    | some _ => s1 - 1
    | none => s1

def trieNodeFreeSizeL : List TrieNode → Nat → Nat
  | [], size => size
  | t :: ts, size => trieNodeFreeSizeL ts (trieNodeFreeSize t size)
end

/-- Rebuild the tree applying `f` to the node at path `p` (reached by
the same `linear_search` steps as `trie_node_find`); used to model the
C's in-place mutation of a node reached through a pointer.  If the
path does not exist the tree is unchanged (all uses are guarded by a
successful find). -/
def setNodeAtPath : TrieNode → List Nat → (TrieNode → TrieNode) → TrieNode
  | n, [], f => f n
  | .node c nd ch, b :: bs, f =>
    match linearSearch ch (sgn b) with
    | none => .node c nd ch
    | some child => .node c nd (replaceFirst ch b (setNodeAtPath child bs f))

/-- trie_prefix_delete of trie.c.  After `trie_node_find` reaches the
prefix node: if it has no children, plain `trie_delete` runs (with its
full pruning).  Otherwise the C (1) frees every child subtree in place
(only the size effect is observable afterwards, the stale list nodes
keeping NULL data), (2) calls `trie_delete(trie, prefix)` — which
descends the untouched path, removes the prefix node's own item if
any, and cannot prune anything because the prefix node's children
list still has its length — and (3) `list_clear`s the children list.
The model rebuilds the identical result: the size after (1) and (2),
and the tree with the prefix node's item removed by the
`trie_delete` call of (2) and its children list emptied by (3). -/
def triePrefixDelete (t : Trie) (p : List Nat) : Trie :=
  match trieNodeFind t.root p with
  | none => t
  | some cursor =>
    if cursor.children.isEmpty then (trieDelete t p).1
    else
      let size1 := trieNodeFreeSizeL cursor.children t.size
      let r :=
        match p with
        | [] => (t.root, size1, false)
        | _ =>
          let d := trieNodeRecDelete t.root p size1
          (d.1, d.2.1, d.2.2.1)
      { root := setNodeAtPath r.1 p (fun n => .node n.chr n.ndata []),
        size := r.2.1 }

mutual
/-- trie_node_prefix_set of trie.c: recursively over the subtree,
replace the data, ttl and latime of every node that already carries an
item (`node->ndata && node->ndata->data`; live items always have
non-NULL data); `ctime` is not touched and no item is created. -/
def trieNodeSetAll (now ttl : Int) (v : List Nat) : TrieNode → TrieNode
  | .node c nd ch =>
    let ch' := trieNodeSetAllL now ttl v ch
    match nd with
    | some d => .node c (some ⟨v, ttl, d.ctime, now⟩) ch'
    | none => .node c none ch'

def trieNodeSetAllL (now ttl : Int) (v : List Nat) :
    List TrieNode → List TrieNode
  | [] => []
  | t :: ts => trieNodeSetAll now ttl v t :: trieNodeSetAllL now ttl v ts
end

/-- trie_prefix_set of trie.c: locate the prefix node and apply
`trie_node_prefix_set` to it in place; the stored trie size is not
touched. -/
def triePrefixSet (t : Trie) (p : List Nat) (v : List Nat) (ttl now : Int) :
    Trie :=
  match trieNodeFind t.root p with
  | none => t
  | some _ =>
    { root := setNodeAtPath t.root p (trieNodeSetAll now ttl v),
      size := t.size }

/-- is_integer of util.c: every character of the string must satisfy
`isdigit`; in particular a leading minus sign makes it false, and the
empty string (no characters to reject) makes it true. -/
def isInteger (s : List Nat) : Bool :=
  s.all fun c => 48 ≤ c && c ≤ 57

/-- parse_int of util.c: fold the leading digits into an `int`.  The
C accumulator is a machine `int` and overflows (undefined behaviour)
past `INT_MAX`; the model uses an unbounded `Int` and is therefore
faithful only where the C stays in range.  On an all-digit string the
accumulator is monotone (each step multiplies a nonnegative value by
10 and adds a digit), so every intermediate value is bounded by the
final parsed value: requiring the parsed value `n` to satisfy
`n + 1 < 2 ^ 31` keeps the whole fold, and the `n + 1` computed by
`trie_node_integer_mod`, inside `int` range.  The theorem that uses
this function for arbitrary tries (`claim_c8_amended`) carries
exactly that bound as a hypothesis (`intFitsAt`). -/
def parseInt (s : List Nat) : Int :=
  go 0 s
where
  go (n : Int) : List Nat → Int
    | [] => n
    | c :: cs => if 48 ≤ c ∧ c ≤ 57 then go (n * 10 + ((c : Int) - 48)) cs else n

/-- Decimal digits of a natural number, most significant first
(helper for the `sprintf("%d", n)` model); fuel-bounded structural
recursion, `natToDigits` supplies fuel `n + 1` which the number of
digits never exceeds. -/
def natToDigitsF : Nat → Nat → List Nat
  | 0, n => [48 + n % 10]
  | f + 1, n =>
    if n < 10 then [48 + n]
    else natToDigitsF f (n / 10) ++ [48 + n % 10]

/-- Decimal digits of a natural number (see `natToDigitsF`). -/
def natToDigits (n : Nat) : List Nat :=
  natToDigitsF n n

/-- Bytes produced by `sprintf("%d", n)` for an in-range `int`. -/
def intToBytes (n : Int) : List Nat :=
  if n < 0 then 45 :: natToDigits (-n).toNat else natToDigits n.toNat

mutual
/-- trie_node_integer_mod of trie.c: over the whole subtree, every
node whose item data passes `is_integer` has its data re-serialised as
the decimal text of the parsed value plus or minus one and its
`latime` set to now; every other item is left untouched.  (The C
function's first line returns early on a childless node without an
item; that path returns the node unchanged exactly as the general code
below does, so it needs no separate case.) -/
def trieNodeIntegerMod (now : Int) (inc : Bool) : TrieNode → TrieNode
  | .node c nd ch =>
    let ch' := trieNodeIntegerModL now inc ch
    match nd with
    | some d =>
      if isInteger d.data then
        let n := parseInt d.data
        let n' := if inc then n + 1 else n - 1
        .node c (some ⟨intToBytes n', d.ttl, d.ctime, now⟩) ch'
      else
        .node c (some d) ch'
    | none => .node c none ch'

def trieNodeIntegerModL (now : Int) (inc : Bool) :
    List TrieNode → List TrieNode
  | [] => []
  | t :: ts => trieNodeIntegerMod now inc t :: trieNodeIntegerModL now inc ts
end

/-- Per-item effect of `trie_node_integer_mod` (see
`trieNodeIntegerMod`): an item whose data passes `is_integer` is
re-serialised as the decimal text of the parsed value plus or minus
one with `latime` refreshed; any other item is untouched. -/
def integerModData (now : Int) (inc : Bool) (d : NodeData) : NodeData :=
  if isInteger d.data then
    ⟨intToBytes (if inc then parseInt d.data + 1 else parseInt d.data - 1),
     d.ttl, d.ctime, now⟩
  else d

mutual
/-- Overflow-free region for `trie_node_integer_mod` on a subtree:
every item whose data passes `is_integer` parses to a value `n` with
`n + 1 < 2 ^ 31`, so the C `int` accumulator of `parse_int` (monotone
on digit strings, see `parseInt`) and the computed `n + 1` both stay
in `int` range and the unbounded model agrees with the program. -/
def intFitsNode : TrieNode → Bool
  | .node _ nd ch =>
    (match nd with
     | some d => !isInteger d.data || decide (parseInt d.data + 1 < 2 ^ 31)
     | none => true) && intFitsNodeL ch

def intFitsNodeL : List TrieNode → Bool
  | [] => true
  | t :: ts => intFitsNode t && intFitsNodeL ts
end

/-- Overflow-free region at a prefix: the check of `intFitsNode`
applied to the subtree `trie_node_find` reaches (vacuously true when
the prefix path is absent, where `trie_prefix_inc/dec` do nothing). -/
def intFitsAt (t : Trie) (p : List Nat) : Bool :=
  match trieNodeFind t.root p with
  | none => true
  | some n => intFitsNode n

/-- trie_prefix_inc / trie_prefix_dec of trie.c: locate the prefix
node and run `trie_node_integer_mod` on it in place. -/
def triePrefixIntegerMod (t : Trie) (p : List Nat) (inc : Bool) (now : Int) :
    Trie :=
  match trieNodeFind t.root p with
  | none => t
  | some _ =>
    { root := setNodeAtPath t.root p (trieNodeIntegerMod now inc),
      size := t.size }

mutual
/-- trie_node_prefix_find of trie.c: pre-order walk emitting, for
every node that carries an item, the key string accumulated so far
(the shared `str` buffer holds the prefix followed by the edge bytes
of the path; the model threads it as a list).  Children are visited in
list order.  The C also doubles the buffer when the key outgrows it;
that memory management has no effect on the emitted keys and is not
modelled. -/
def trieNodeEnum : TrieNode → List Nat → List (List Nat)
  | .node _ nd ch, str =>
    let here := match nd with
      | some _ => [str]
      | none => []
    here ++ trieNodeEnumL ch str

def trieNodeEnumL : List TrieNode → List Nat → List (List Nat)
  | [], _ => []
  | t :: ts, str => trieNodeEnum t (str ++ [t.chr]) ++ trieNodeEnumL ts str
end

/-- trie_prefix_find of trie.c: locate the prefix node (NULL result
when the path is absent) and enumerate its subtree, keys being the
prefix extended by the walk. -/
def triePrefixFindKeys (t : Trie) (p : List Nat) :
    Option (List (List Nat)) :=
  match trieNodeFind t.root p with
  | none => none
  | some n => some (trieNodeEnum n p)

mutual
/-- Number of item-bearing nodes in a subtree (the quantity
`database_size` tracks, per the spec invariant). -/
def itemCount : TrieNode → Nat
  | .node _ nd ch => (match nd with | some _ => 1 | none => 0) + itemCountL ch

def itemCountL : List TrieNode → Nat
  | [] => 0
  | t :: ts => itemCount t + itemCountL ts
end

/-- Strictly ascending (by signed `chr`) children list of valid byte
labels — the spec's sibling-ordering invariant, which the code's
sorted child lists maintain. -/
def chrsAscending : List TrieNode → Bool
  | [] => true
  | [t] => 0 < t.chr && t.chr < 256
  | t :: u :: ts =>
    0 < t.chr && t.chr < 256 && decide (sgn t.chr < sgn u.chr) &&
      chrsAscending (u :: ts)

mutual
/-- Well-formedness of a node, from the spec invariants the code
maintains: every child's `chr` is a valid nonzero byte, the children
list is strictly ascending by signed `chr` (adjacent check; pairwise
follows by transitivity), and the children are themselves
well-formed. -/
def wfNode : TrieNode → Bool
  | .node _ _ ch => chrsAscending ch && wfNodeL ch

def wfNodeL : List TrieNode → Bool
  | [] => true
  | t :: ts => wfNode t && wfNodeL ts
end

/-- Well-formed trie: the root's subtree is well-formed (the root's
own `chr` is the space placeholder and never compared). -/
def wfTrie (t : Trie) : Bool :=
  wfNode t.root

/-- Byte-lexicographic comparison on byte strings, bytes compared as
unsigned values (what the claim about enumeration order refers to). -/
def byteLexLe : List Nat → List Nat → Bool
  | [], _ => true
  | _ :: _, [] => false
  | a :: as, b :: bs =>
    if a < b then true else if b < a then false else byteLexLe as bs

/-- Lexicographic comparison on byte strings with bytes compared as
signed `char`s — the order the code's child sorting actually
realises. -/
def sgnLexLe : List Nat → List Nat → Bool
  | [], _ => true
  | _ :: _, [] => false
  | a :: as, b :: bs =>
    if sgn a < sgn b then true else if sgn b < sgn a then false else sgnLexLe as bs

/-- Adjacent-pairs ascending check for a list of keys. -/
def ascendingBy (le : List Nat → List Nat → Bool) :
    List (List Nat) → Bool
  | [] => true
  | [_] => true
  | a :: b :: rest => le a b && ascendingBy le (b :: rest)

/-- A dead node: no item and no children.  Point delete's pruning
unwind removes such nodes (a prunable child is unlinked, and a node
left without item and children reports prunable in turn). -/
def isDead (t : TrieNode) : Bool :=
  t.ndata.isNone && t.children.isEmpty

mutual
/-- Whether any node strictly below this one is dead or has a dead
descendant (the root itself is allowed to be empty). -/
def anyDead : TrieNode → Bool
  | .node _ _ ch => anyDeadL ch

def anyDeadL : List TrieNode → Bool
  | [] => false
  | t :: ts => (isDead t || anyDead t) || anyDeadL ts
end

/-! ## Server layer: TTL index and handlers (server.c)

The server state kept here is the slice the claims are about: the
selected database's trie, the global `expiring_keys` vector and the
global `keyspace_size` counter.  A `struct expiring_key` holds the key
bytes, a pointer to the trie it lives in (one database is modelled, so
the pointer is implicit) and the pointer `nd` to the key's
`node_data` inside the trie.  In C that pointer stays valid and
tracks the item's current fields for as long as the item exists
(inserts and updates reuse the `node_data` allocation), so it is
modelled by looking the key up in the current trie; once the item has
been deleted the C pointer dangles and any dereference is undefined —
the model returns a default in that case, and no theorem below
evaluates a dangling dereference. -/

/-- One entry of the `expiring_keys` vector. -/
structure ExpiringKey where
  key : List Nat
deriving DecidableEq, Repr

/-- Server state slice: selected database's trie, the TTL index, and
the global key counter (`tritedb.keyspace_size`, a signed count). -/
structure ServerState where
  trie : Trie
  expiringKeys : List ExpiringKey
  keyspaceSize : Int
deriving Repr

/-- Dereference `ek->nd`: the item the entry points to, looked up in
the current trie (see the section comment; the default is never
reached in the theorems below). -/
def derefNd (t : Trie) (e : ExpiringKey) : NodeData :=
  (trieFind t e.key).getD ⟨[], 0, 0, 0⟩

/-- compare_ttl of server.c: both remaining-time deltas are computed
in `uint64_t` arithmetic — `(n->ctime + n->ttl) - now` wraps modulo
2^64, so a negative remaining time becomes a value close to 2^64 —
and compared with `<=`. -/
def compareTtl (now : Int) (n1 n2 : NodeData) : Bool :=
  (n1.ctime + n1.ttl - now) % 2 ^ 64 ≤ (n2.ctime + n2.ttl - now) % 2 ^ 64

/-- Sorting of the `expiring_keys` vector.  Modelled from the spec:
`vector.c` is not under `src/`; the spec says the index "is kept
sorted ascending" per the comparator so that the earliest entry comes
first, which an insertion sort realises (elements are emitted in an
order where the comparator accepts each adjacent pair). -/
def sortInsert {α : Type} (le : α → α → Bool) (a : α) :
    List α → List α
  | [] => [a]
  | b :: bs => if le a b then a :: b :: bs else b :: sortInsert le a bs

/-- Full sort by repeated insertion (see `sortInsert`). -/
def sortAsc {α : Type} (le : α → α → Bool) : List α → List α
  | [] => []
  | a :: as => sortInsert le a (sortAsc le as)

/-- Replace the item stored for `key` (which must be present): models
the C writing through a `node_data` pointer obtained from
`trie_insert` or `trie_find`. -/
def setItemAtKey (t : Trie) (key : List Nat) (nd : NodeData) : Trie :=
  { root := setNodeAtPath t.root key (fun n => .node n.chr (some nd) n.children),
    size := t.size }

/-- put_data_into_trie of server.c (the claims use the non-prefix
path; the prefix path is `trie_prefix_set`).  `ttl` is the command ttl
or `-NOTTL` when the command ttl is zero, truncated to the `int16_t`
local.  The non-prefix path inserts (which resets the item's ttl to
`-NOTTL`, so the subsequent `has_ttl` test is always false), then, when
`ttl != -NOTTL`, writes `cmd->ttl` / `now` through the returned
`node_data` pointer, appends a new expiring entry (`has_ttl` being
false) and re-sorts the vector with `compare_ttl`.  The global
`keyspace_size` is incremented unconditionally. -/
def putDataIntoTrie (now : Int) (st : ServerState) (isPfx : Bool)
    (key v : List Nat) (cmdTtl : Int) : ServerState :=
  let ttl := toInt16 (if cmdTtl ≠ 0 then cmdTtl else -NOTTL)
  if isPfx then
    { st with trie := triePrefixSet st.trie key v ttl now }
  else
    let r := trieInsert st.trie key v now
    let trie1 := r.1
    if ttl ≠ -NOTTL then
      let nd' : NodeData := ⟨r.2.data, toInt16 cmdTtl, now, now⟩
      let trie2 := setItemAtKey trie1 key nd'
      let eks := st.expiringKeys ++ [⟨key⟩]
      let eks' := sortAsc (fun a b => compareTtl now (derefNd trie2 a) (derefNd trie2 b)) eks
      { trie := trie2, expiringKeys := eks', keyspaceSize := st.keyspaceSize + 1 }
    else
      { trie := trie1, expiringKeys := st.expiringKeys,
        keyspaceSize := st.keyspaceSize + 1 }

/-- get_handler of server.c (point GET).  Reply is `true` when a
value tuple is returned, `false` for ACK(NOK).  On a present key whose
ttl is not the sentinel and whose signed remaining time
`ctime + ttl - now` is ≤ 0, the key is deleted from the trie and the
keyspace counter decremented — the `expiring_keys` vector is not
touched on this path.  Otherwise `latime` is refreshed and the value
returned. -/
def getHandler (now : Int) (st : ServerState) (key : List Nat) :
    ServerState × Bool :=
  match trieFind st.trie key with
  | none => (st, false)
  | some nd =>
    if nd.ttl ≠ -NOTTL ∧ nd.ctime + nd.ttl - now ≤ 0 then
      ({ trie := (trieDelete st.trie key).1,
         expiringKeys := st.expiringKeys,
         keyspaceSize := st.keyspaceSize - 1 }, false)
    else
      ({ st with trie := setItemAtKey st.trie key { nd with latime := now } },
       true)

/-- ttl_handler of server.c: on an absent key reply NOK; otherwise
write the command ttl and `ctime = latime = now` through the item
pointer, append a new expiring entry unless the item already had a
ttl, and re-sort the vector with `compare_ttl`. -/
def ttlHandler (now : Int) (st : ServerState) (key : List Nat)
    (cmdTtl : Int) : ServerState × Bool :=
  match trieFind st.trie key with
  | none => (st, false)
  | some nd =>
    let hasTtl := nd.ttl ≠ -NOTTL
    let trie' := setItemAtKey st.trie key
      { nd with ttl := toInt16 cmdTtl, ctime := now, latime := now }
    let eks := if hasTtl then st.expiringKeys else st.expiringKeys ++ [⟨key⟩]
    let eks' := sortAsc (fun a b => compareTtl now (derefNd trie' a) (derefNd trie' b)) eks
    ({ trie := trie', expiringKeys := eks', keyspaceSize := st.keyspaceSize },
     true)

/-- del_handler of server.c for a single non-prefix key: call
`trie_delete`, reply NOK when it reports not found, decrement the
keyspace counter unconditionally; the `expiring_keys` vector is not
touched. -/
def delHandlerSingle (st : ServerState) (key : List Nat) :
    ServerState × Bool :=
  let r := trieDelete st.trie key
  ({ trie := r.1, expiringKeys := st.expiringKeys,
     keyspaceSize := st.keyspaceSize - 1 }, r.2)

/-- Loop body of expire_keys of server.c: index `i` scans the vector;
the entry's signed remaining time is read through its `nd` pointer;
a positive delta breaks the loop; otherwise the key is deleted from
its trie, the entry is removed from the vector at index `i`
(`vector_delete`, modelled from the spec as removal from the sequence,
shifting the later entries down), the keyspace counter decremented —
and the loop continues with `i + 1`, which lands past the entry that
just shifted into slot `i`.  A dangling `nd` (entry whose item is
gone) would be undefined behaviour in C; the model stops there and no
theorem below reaches that case. -/
def expireLoopF (now : Int) :
    Nat → Trie → List ExpiringKey → Int → Nat →
      Trie × List ExpiringKey × Int
  | 0, trie, eks, ksize, _ => (trie, eks, ksize)
  | f + 1, trie, eks, ksize, i =>
    if h : i < eks.length then
      let ek := eks.get ⟨i, h⟩
      match trieFind trie ek.key with
      | none => (trie, eks, ksize)
      | some nd =>
        if nd.ctime + nd.ttl - now > 0 then (trie, eks, ksize)
        else
          expireLoopF now f (trieDelete trie ek.key).1 (eks.eraseIdx i)
            (ksize - 1) (i + 1)
    else (trie, eks, ksize)

/-- expire_keys of server.c: nothing to do on an empty vector,
otherwise run the scan from index 0.  The loop is fuel-bounded
(structural, so the definition computes); each iteration both shrinks
the vector by one and advances the index, so the vector's initial
length is always enough fuel. -/
def expireKeys (now : Int) (st : ServerState) : ServerState :=
  if st.expiringKeys.length = 0 then st
  else
    let r := expireLoopF now st.expiringKeys.length st.trie
      st.expiringKeys st.keyspaceSize 0
    { trie := r.1, expiringKeys := r.2.1, keyspaceSize := r.2.2 }

/-! ## Concrete states used by the claim theorems -/

/-- Fresh server state: empty db0 trie, empty TTL index. -/
def emptyState : ServerState := ⟨trieCreate, [], 0⟩

/-- State after `PUT k v` (key byte 107, value byte 118) with ttl 1
at time 0: the key is in the trie with ttl 1 and the TTL index holds
its entry. -/
def statePutK : ServerState := putDataIntoTrie 0 emptyState false [107] [118] 1

/-- State after `PUT a va` with ttl 1 and `PUT b vb` with ttl 100,
both at time 0 (keys a = byte 97, b = byte 98). -/
def stateAB : ServerState :=
  putDataIntoTrie 0 (putDataIntoTrie 0 emptyState false [97] [118] 1)
    false [98] [118] 100

/-- State whose TTL index holds three live entries, ascending by
remaining time: a (ctime 0, ttl 1), b (ctime 0, ttl 2),
c (ctime 0, ttl 100). -/
def stateABC : ServerState :=
  ⟨⟨.node 32 none
      [.node 97 (some ⟨[120], 1, 0, 0⟩) [],
       .node 98 (some ⟨[120], 2, 0, 0⟩) [],
       .node 99 (some ⟨[120], 100, 0, 0⟩) []], 3⟩,
   [⟨[97]⟩, ⟨[98]⟩, ⟨[99]⟩], 3⟩

/-- Trie of the spec's prefix-delete scenario: keys "hello",
"helloworld", "hellot" and "hel" inserted at time 0. -/
def c6trie : Trie :=
  (trieInsert (trieInsert (trieInsert (trieInsert trieCreate
    [104, 101, 108, 108, 111] [97] 0).1
    [104, 101, 108, 108, 111, 119, 111, 114, 108, 100] [98] 0).1
    [104, 101, 108, 108, 111, 116] [99] 0).1
    [104, 101, 108] [100] 0).1

/-- The prefix "hello" as bytes. -/
def c6p : List Nat := [104, 101, 108, 108, 111]

/-- The node `trie_node_find` reaches for "hello" in `c6trie`. -/
def c6cursor : TrieNode :=
  (trieNodeFind c6trie.root c6p).getD (.node 0 none [])

/-! ## Lemmas: signed bytes and the child-list ordering invariant -/

theorem sgn_inj {a b : Nat} (ha : a < 256) (hb : b < 256)
    (h : sgn a = sgn b) : a = b := by
  simp only [sgn] at h
  split at h <;> split at h <;> omega

theorem chrsAscending_cons {t : TrieNode} {ts : List TrieNode}
    (h : chrsAscending (t :: ts) = true) :
    (0 < t.chr ∧ t.chr < 256) ∧ chrsAscending ts = true := by
  cases ts with
  | nil =>
    simp only [chrsAscending, Bool.and_eq_true, decide_eq_true_eq] at h
    exact ⟨h, rfl⟩
  | cons u ts' =>
    simp only [chrsAscending, Bool.and_eq_true, decide_eq_true_eq] at h
    exact ⟨⟨h.1.1.1, h.1.1.2⟩, h.2⟩

theorem chrsAscending_head_lt {t : TrieNode} {ts : List TrieNode}
    (h : chrsAscending (t :: ts) = true) :
    ∀ u ∈ ts, sgn t.chr < sgn u.chr := by
  induction ts generalizing t with
  | nil => intro u hu; cases hu
  | cons v ts' ih =>
    intro u hu
    have hlt : sgn t.chr < sgn v.chr := by
      simp only [chrsAscending, Bool.and_eq_true, decide_eq_true_eq] at h
      exact h.1.2
    have htail : chrsAscending (v :: ts') = true := (chrsAscending_cons h).2
    cases hu with
    | head => exact hlt
    | tail _ hu' => exact lt_trans hlt (ih htail u hu')

theorem chrsAscending_pairwise {ch : List TrieNode}
    (h : chrsAscending ch = true) :
    ch.Pairwise (fun a b => sgn a.chr < sgn b.chr) := by
  induction ch with
  | nil => exact List.Pairwise.nil
  | cons t ts ih =>
    exact List.Pairwise.cons (chrsAscending_head_lt h)
      (ih (chrsAscending_cons h).2)

theorem chrsAscending_bounds {ch : List TrieNode}
    (h : chrsAscending ch = true) :
    ∀ t ∈ ch, 0 < t.chr ∧ t.chr < 256 := by
  induction ch with
  | nil => intro t ht; cases ht
  | cons u ts ih =>
    intro t ht
    cases ht with
    | head => exact (chrsAscending_cons h).1
    | tail _ ht' => exact ih (chrsAscending_cons h).2 t ht'

theorem chrsAscending_of {ch : List TrieNode}
    (hp : ch.Pairwise (fun a b => sgn a.chr < sgn b.chr))
    (hb : ∀ t ∈ ch, 0 < t.chr ∧ t.chr < 256) :
    chrsAscending ch = true := by
  induction ch with
  | nil => rfl
  | cons t ts ih =>
    have hbt := hb t (List.mem_cons_self t ts)
    have hts := ih hp.of_cons fun u hu => hb u (List.mem_cons_of_mem t hu)
    cases ts with
    | nil =>
      simp only [chrsAscending, Bool.and_eq_true, decide_eq_true_eq]
      exact hbt
    | cons u ts' =>
      have hlt : sgn t.chr < sgn u.chr :=
        (List.pairwise_cons.mp hp).1 u (List.mem_cons_self u ts')
      simp only [chrsAscending, Bool.and_eq_true, decide_eq_true_eq]
      exact ⟨⟨⟨hbt.1, hbt.2⟩, hlt⟩, hts⟩

theorem wfNode_iff {c : Nat} {nd : Option NodeData} {ch : List TrieNode} :
    wfNode (.node c nd ch) = true ↔
      chrsAscending ch = true ∧ wfNodeL ch = true := by
  simp [wfNode, Bool.and_eq_true]

theorem wfNodeL_mem {ch : List TrieNode} {t : TrieNode}
    (h : wfNodeL ch = true) (ht : t ∈ ch) : wfNode t = true := by
  induction ch with
  | nil => cases ht
  | cons u ts ih =>
    simp only [wfNodeL, Bool.and_eq_true] at h
    cases ht with
    | head => exact h.1
    | tail _ ht' => exact ih h.2 ht'

theorem wfNode_children {n : TrieNode} (h : wfNode n = true) :
    chrsAscending n.children = true ∧
      ∀ t ∈ n.children, wfNode t = true := by
  cases n with
  | node c nd ch =>
    have h' := wfNode_iff.mp h
    exact ⟨h'.1, fun t ht => wfNodeL_mem h'.2 ht⟩

/-! ## Lemmas: linear_search and child replacement -/

theorem linearSearch_some {ch : List TrieNode} {v : Int} {t : TrieNode}
    (h : linearSearch ch v = some t) : t ∈ ch ∧ sgn t.chr = v := by
  induction ch with
  | nil => cases h
  | cons u ts ih =>
    simp only [linearSearch] at h
    split at h
    · rename_i heq
      cases h
      exact ⟨List.mem_cons_self _ _, heq⟩
    · split at h
      · cases h
      · have := ih h
        exact ⟨List.mem_cons_of_mem u this.1, this.2⟩

theorem linearSearch_absent {ch : List TrieNode} {b : Nat}
    (hasc : chrsAscending ch = true)
    (h : linearSearch ch (sgn b) = none) :
    ∀ t ∈ ch, t.chr ≠ b := by
  induction ch with
  | nil => intro t ht; cases ht
  | cons u ts ih =>
    intro t ht hc
    simp only [linearSearch] at h
    split at h
    · cases h
    · rename_i hne
      split at h
      · rename_i hgt
        rcases List.mem_cons.mp ht with rfl | ht'
        · exact hne (by rw [hc])
        · have hlt := chrsAscending_head_lt hasc t ht'
          rw [hc] at hlt
          omega
      · rcases List.mem_cons.mp ht with rfl | ht'
        · exact hne (by rw [hc])
        · exact ih (chrsAscending_cons hasc).2 h t ht' hc

theorem linearSearch_mem {ch : List TrieNode} {b : Nat} {t : TrieNode}
    (hasc : chrsAscending ch = true) (ht : t ∈ ch) (hchr : t.chr = b) :
    linearSearch ch (sgn b) = some t := by
  induction ch with
  | nil => cases ht
  | cons u ts ih =>
    have hbd := chrsAscending_bounds hasc
    rcases List.mem_cons.mp ht with rfl | ht'
    · simp [linearSearch, hchr]
    · have hlt := chrsAscending_head_lt hasc t ht'
      simp only [linearSearch]
      split
      · rename_i heq
        exfalso
        have hub := hbd u (List.mem_cons_self u ts)
        have htb := hbd t (List.mem_cons_of_mem u ht')
        have : u.chr = t.chr := sgn_inj hub.2 htb.2 (by rw [heq, hchr])
        rw [this] at hlt
        exact lt_irrefl _ hlt
      · split
        · rename_i hgt
          exfalso
          rw [hchr] at hlt
          omega
        · exact ih (chrsAscending_cons hasc).2 ht'

theorem replaceFirst_map_chr {ch : List TrieNode} {b : Nat} {t' : TrieNode}
    (h : t'.chr = b) :
    (replaceFirst ch b t').map TrieNode.chr = ch.map TrieNode.chr := by
  induction ch with
  | nil => rfl
  | cons u ts ih =>
    simp only [replaceFirst]
    split
    · rename_i hc
      simp [h, hc]
    · simp [ih]

theorem replaceFirst_mem {ch : List TrieNode} {b : Nat} {t' u : TrieNode}
    (h : u ∈ replaceFirst ch b t') : u ∈ ch ∨ u = t' := by
  induction ch with
  | nil => cases h
  | cons w ts ih =>
    simp only [replaceFirst] at h
    split at h
    · rcases List.mem_cons.mp h with rfl | h'
      · exact Or.inr rfl
      · exact Or.inl (List.mem_cons_of_mem w h')
    · rcases List.mem_cons.mp h with rfl | h'
      · exact Or.inl (List.mem_cons_self _ ts)
      · rcases ih h' with hh | hh
        · exact Or.inl (List.mem_cons_of_mem w hh)
        · exact Or.inr hh

theorem chrsAscending_congr {ch ch' : List TrieNode}
    (h : ch.map TrieNode.chr = ch'.map TrieNode.chr) :
    chrsAscending ch = chrsAscending ch' := by
  induction ch generalizing ch' with
  | nil =>
    cases ch' with
    | nil => rfl
    | cons _ _ => simp at h
  | cons t ts ih =>
    cases ch' with
    | nil => simp at h
    | cons t' ts' =>
      simp only [List.map_cons, List.cons.injEq] at h
      have hts := ih h.2
      cases ts with
      | nil =>
        cases ts' with
        | nil => simp [chrsAscending, h.1]
        | cons _ _ => simp at h
      | cons u us =>
        cases ts' with
        | nil => simp at h
        | cons u' us' =>
          simp only [List.map_cons, List.cons.injEq] at h
          simp only [chrsAscending, h.1, h.2.1, hts]

theorem linearSearch_replaceFirst_self {ch : List TrieNode} {b : Nat}
    {t t' : TrieNode} (hbd : ∀ u ∈ ch, u.chr < 256) (hb : b < 256)
    (hsome : linearSearch ch (sgn b) = some t) (hc : t'.chr = b) :
    linearSearch (replaceFirst ch b t') (sgn b) = some t' := by
  induction ch with
  | nil => cases hsome
  | cons u ts ih =>
    simp only [linearSearch] at hsome
    by_cases heq : sgn u.chr = sgn b
    · have : u.chr = b :=
        sgn_inj (hbd u (List.mem_cons_self u ts)) hb heq
      simp [replaceFirst, this, linearSearch, hc]
    · rw [if_neg heq] at hsome
      split at hsome
      · cases hsome
      · have hne : u.chr ≠ b := fun hcc => heq (by rw [hcc])
        simp only [replaceFirst, if_neg hne, linearSearch, if_neg heq]
        rename_i hngt
        rw [if_neg hngt]
        exact ih (fun w hw => hbd w (List.mem_cons_of_mem u hw)) hsome

theorem linearSearch_replaceFirst_other {ch : List TrieNode} {b : Nat}
    {t' : TrieNode} {v : Int} (hbd : ∀ u ∈ ch, u.chr < 256)
    (hc : t'.chr = b) (hv : v ≠ sgn b) :
    linearSearch (replaceFirst ch b t') v = linearSearch ch v := by
  induction ch with
  | nil => rfl
  | cons u ts ih =>
    by_cases hcc : u.chr = b
    · have hsu : sgn t'.chr = sgn u.chr := by rw [hc, hcc]
      simp only [replaceFirst, if_pos hcc, linearSearch, hsu]
      split
      · rename_i heq
        exfalso
        rw [hcc] at heq
        exact hv heq.symm
      · rfl
    · simp only [replaceFirst, if_neg hcc, linearSearch]
      split
      · rfl
      · split
        · rfl
        · exact ih (fun w hw => hbd w (List.mem_cons_of_mem u hw))

/-! ## Lemmas: merge sort correctness -/

theorem mergeTnodeF_perm (f : Nat) (l1 l2 : List TrieNode) :
    (mergeTnodeF f l1 l2).Perm (l1 ++ l2) := by
  induction f generalizing l1 l2 with
  | zero => exact List.Perm.refl _
  | succ f ih =>
    cases l1 with
    | nil =>
      simp only [mergeTnodeF, List.nil_append]
      exact List.Perm.refl _
    | cons t1 ts1 =>
      cases l2 with
      | nil =>
        simp only [mergeTnodeF, List.append_nil]
        exact List.Perm.refl _
      | cons t2 ts2 =>
        simp only [mergeTnodeF]
        split
        · exact (ih ts1 (t2 :: ts2)).cons t1
        · exact ((ih (t1 :: ts1) ts2).cons t2).trans List.perm_middle.symm

theorem mergeTnodeF_pairwise {f : Nat} {l1 l2 : List TrieNode}
    (hf : l1.length + l2.length ≤ f)
    (h1 : l1.Pairwise fun a b => sgn a.chr ≤ sgn b.chr)
    (h2 : l2.Pairwise fun a b => sgn a.chr ≤ sgn b.chr) :
    (mergeTnodeF f l1 l2).Pairwise fun a b => sgn a.chr ≤ sgn b.chr := by
  induction f generalizing l1 l2 with
  | zero =>
    have : l1 = [] ∧ l2 = [] := by
      constructor <;> (apply List.eq_nil_of_length_eq_zero; omega)
    rw [this.1, this.2]
    exact List.Pairwise.nil
  | succ f ih =>
    cases l1 with
    | nil => simpa only [mergeTnodeF] using h2
    | cons t1 ts1 =>
      cases l2 with
      | nil => simpa only [mergeTnodeF] using h1
      | cons t2 ts2 =>
        simp only [mergeTnodeF]
        have hlen1 : ts1.length + (t2 :: ts2).length ≤ f := by
          simp only [List.length_cons] at hf ⊢; omega
        have hlen2 : (t1 :: ts1).length + ts2.length ≤ f := by
          simp only [List.length_cons] at hf ⊢; omega
        split
        · rename_i hle
          refine List.Pairwise.cons ?_ (ih hlen1 h1.of_cons h2)
          intro x hx
          have hx' := (mergeTnodeF_perm f ts1 (t2 :: ts2)).mem_iff.mp hx
          rcases List.mem_append.mp hx' with hx1 | hx2
          · exact (List.pairwise_cons.mp h1).1 x hx1
          · rcases List.mem_cons.mp hx2 with rfl | hx3
            · exact hle
            · exact le_trans hle ((List.pairwise_cons.mp h2).1 x hx3)
        · rename_i hgt
          have hle : sgn t2.chr ≤ sgn t1.chr := le_of_not_le hgt
          refine List.Pairwise.cons ?_ (ih hlen2 h1 h2.of_cons)
          intro x hx
          have hx' := (mergeTnodeF_perm f (t1 :: ts1) ts2).mem_iff.mp hx
          rcases List.mem_append.mp hx' with hx1 | hx2
          · rcases List.mem_cons.mp hx1 with rfl | hx3
            · exact hle
            · exact le_trans hle ((List.pairwise_cons.mp h1).1 x hx3)
          · exact (List.pairwise_cons.mp h2).1 x hx2

theorem mergeSortTnodeF_perm (f : Nat) (l : List TrieNode) :
    (mergeSortTnodeF f l).Perm l := by
  induction f generalizing l with
  | zero => exact List.Perm.refl _
  | succ f ih =>
    simp only [mergeSortTnodeF]
    split
    · exact List.Perm.refl _
    · refine List.Perm.trans (mergeTnodeF_perm _ _ _) ?_
      refine List.Perm.trans (List.Perm.append (ih _) (ih _)) ?_
      rw [List.take_append_drop]

theorem mergeSortTnodeF_pairwise {f : Nat} {l : List TrieNode}
    (hf : l.length ≤ f) :
    (mergeSortTnodeF f l).Pairwise fun a b => sgn a.chr ≤ sgn b.chr := by
  induction f generalizing l with
  | zero =>
    have : l = [] := by apply List.eq_nil_of_length_eq_zero; omega
    rw [this]
    exact List.Pairwise.nil
  | succ f ih =>
    simp only [mergeSortTnodeF]
    split
    · rename_i hle
      cases l with
      | nil => exact List.Pairwise.nil
      | cons t ts =>
        cases ts with
        | nil => simp
        | cons u ts' => simp at hle
    · rename_i hgt
      have h2 : 2 ≤ l.length := by omega
      have htake : (l.take (l.length / 2)).length ≤ f := by
        simp only [List.length_take]
        omega
      have hdrop : (l.drop (l.length / 2)).length ≤ f := by
        simp only [List.length_drop]
        omega
      refine mergeTnodeF_pairwise ?_ (ih htake) (ih hdrop)
      rw [(mergeSortTnodeF_perm f (l.take (l.length / 2))).length_eq,
        (mergeSortTnodeF_perm f (l.drop (l.length / 2))).length_eq]

theorem mergeSortTnode_perm (l : List TrieNode) :
    (mergeSortTnode l).Perm l :=
  mergeSortTnodeF_perm _ _

theorem mergeSortTnode_pairwise (l : List TrieNode) :
    (mergeSortTnode l).Pairwise fun a b => sgn a.chr ≤ sgn b.chr :=
  mergeSortTnodeF_pairwise (le_refl _)

/-- A sorted (non-strictly) list whose `chr`s are distinct and in
byte range is strictly sorted. -/
theorem pairwise_lt_of_le_nodup {l : List TrieNode}
    (hle : l.Pairwise fun a b => sgn a.chr ≤ sgn b.chr)
    (hnd : (l.map TrieNode.chr).Nodup)
    (hbd : ∀ t ∈ l, t.chr < 256) :
    l.Pairwise fun a b => sgn a.chr < sgn b.chr := by
  have hnd' : l.Pairwise fun a b => a.chr ≠ b.chr :=
    (List.pairwise_map.mp hnd)
  refine (hle.and hnd').imp_of_mem ?_
  intro a b ha hb hab
  refine lt_of_le_of_ne hab.1 ?_
  intro hs
  exact hab.2 (sgn_inj (hbd a ha) (hbd b hb) hs)

/-! ## Lemmas: insert -/

theorem validKey_cons {b : Nat} {bs : List Nat} :
    validKey (b :: bs) = true ↔ (0 < b ∧ b < 256) ∧ validKey bs = true := by
  simp [validKey]

theorem wfNodeL_of_mem {ch : List TrieNode}
    (h : ∀ t ∈ ch, wfNode t = true) : wfNodeL ch = true := by
  induction ch with
  | nil => rfl
  | cons t ts ih =>
    simp only [wfNodeL, Bool.and_eq_true]
    exact ⟨h t (List.mem_cons_self t ts),
      ih fun u hu => h u (List.mem_cons_of_mem t hu)⟩

theorem trieNodeInsert_chr (now : Int) (n : TrieNode) (k v : List Nat)
    (s : Nat) : (trieNodeInsert now n k v s).1.chr = n.chr := by
  cases n with
  | node c nd ch =>
    cases k with
    | nil => cases nd <;> rfl
    | cons b bs =>
      simp only [trieNodeInsert]
      cases h : linearSearch ch (sgn b) <;> simp [h, TrieNode.chr]

theorem trieNodeInsert_retnd (now : Int) (n : TrieNode) (k v : List Nat)
    (s : Nat) :
    (trieNodeInsert now n k v s).2.2 = ⟨v, -NOTTL, now, now⟩ := by
  induction k generalizing n s with
  | nil =>
    cases n with
    | node c nd ch => cases nd <;> rfl
  | cons b bs ih =>
    cases n with
    | node c nd ch =>
      simp only [trieNodeInsert]
      cases h : linearSearch ch (sgn b) <;> simp [h, ih]

theorem findData_fresh (b : Nat) (bs : List Nat) :
    findData (.node b none []) bs = none := by
  cases bs <;>
    simp [findData, trieNodeFind, TrieNode.children, TrieNode.ndata,
      linearSearch]

theorem trieNodeInsert_size (now : Int) (n : TrieNode) (k v : List Nat)
    (s : Nat) :
    (trieNodeInsert now n k v s).2.1 =
      if (findData n k).isSome then s else s + 1 := by
  induction k generalizing n s with
  | nil =>
    cases n with
    | node c nd ch =>
      cases nd <;>
        simp [trieNodeInsert, findData, trieNodeFind, TrieNode.ndata]
  | cons b bs ih =>
    cases n with
    | node c nd ch =>
      cases h : linearSearch ch (sgn b) with
      | none =>
        have h2 : findData (.node c nd ch) (b :: bs) = none := by
          simp [findData, trieNodeFind, TrieNode.children, h]
        simp only [trieNodeInsert, h]
        rw [ih, h2, findData_fresh]
      | some child =>
        have h2 : findData (.node c nd ch) (b :: bs) = findData child bs := by
          simp [findData, trieNodeFind, TrieNode.children, h]
        simp only [trieNodeInsert, h]
        rw [ih, h2]

/-- The sorted children list built by insert's missing-child branch is
well-ordered again: the fresh node's byte does not occur among the
existing children's bytes. -/
theorem insert_sorted_children {ch : List TrieNode} {b : Nat}
    {sub : TrieNode} (hasc : chrsAscending ch = true)
    (hb : 0 < b ∧ b < 256) (habsent : ∀ t ∈ ch, t.chr ≠ b)
    (hchr : sub.chr = b) :
    chrsAscending (mergeSortTnode (sub :: ch)) = true := by
  have hperm := mergeSortTnode_perm (sub :: ch)
  have hle := mergeSortTnode_pairwise (sub :: ch)
  have hbounds : ∀ t ∈ mergeSortTnode (sub :: ch), 0 < t.chr ∧ t.chr < 256 := by
    intro t ht
    rcases List.mem_cons.mp (hperm.mem_iff.mp ht) with rfl | ht'
    · rw [hchr]; exact hb
    · exact chrsAscending_bounds hasc t ht'
  have hnd : ((sub :: ch).map TrieNode.chr).Nodup := by
    simp only [List.map_cons, List.nodup_cons]
    constructor
    · intro hmem
      rcases List.mem_map.mp hmem with ⟨u, hu, hue⟩
      exact habsent u hu (by rw [← hchr, hue])
    · have hpl := chrsAscending_pairwise hasc
      refine List.pairwise_map.mpr ?_
      exact hpl.imp fun hab => by
        intro he
        rw [he] at hab
        exact lt_irrefl _ hab
  have hnd2 : ((mergeSortTnode (sub :: ch)).map TrieNode.chr).Nodup :=
    ((hperm.map TrieNode.chr).nodup_iff).mpr hnd
  exact chrsAscending_of
    (pairwise_lt_of_le_nodup hle hnd2 fun t ht => (hbounds t ht).2)
    hbounds

theorem trieNodeInsert_wf {n : TrieNode} {k v : List Nat} {now : Int}
    {s : Nat} (hwf : wfNode n = true) (hk : validKey k = true) :
    wfNode (trieNodeInsert now n k v s).1 = true := by
  induction k generalizing n s with
  | nil =>
    cases n with
    | node c nd ch =>
      rw [wfNode_iff] at hwf
      cases nd <;> (simp only [trieNodeInsert]; rw [wfNode_iff]; exact hwf)
  | cons b bs ih =>
    rcases validKey_cons.mp hk with ⟨hb, hk'⟩
    cases n with
    | node c nd ch =>
      rcases wfNode_children hwf with ⟨hasc, hch⟩
      simp only [TrieNode.children] at hasc hch
      have hbd : ∀ u ∈ ch, u.chr < 256 :=
        fun u hu => (chrsAscending_bounds hasc u hu).2
      cases h : linearSearch ch (sgn b) with
      | some child =>
        rcases linearSearch_some h with ⟨hmem, hse⟩
        have hcb : child.chr = b :=
          sgn_inj (hbd child hmem) hb.2 hse
        have hwfc : wfNode child = true := hch child hmem
        have hwfc' := ih (n := child) (s := s) hwfc hk'
        have hchr' : (trieNodeInsert now child bs v s).1.chr = b := by
          rw [trieNodeInsert_chr, hcb]
        simp only [trieNodeInsert, h]
        rw [wfNode_iff]
        constructor
        · rw [chrsAscending_congr (replaceFirst_map_chr hchr')]
          exact hasc
        · refine wfNodeL_of_mem ?_
          intro u hu
          rcases replaceFirst_mem hu with hu' | rfl
          · exact hch u hu'
          · exact hwfc'
      | none =>
        have habsent := linearSearch_absent hasc h
        have hwfsub : wfNode (.node b none []) = true := rfl
        have hwfc' := ih (n := .node b none []) (s := s) hwfsub hk'
        have hchr' : (trieNodeInsert now (.node b none []) bs v s).1.chr = b := by
          rw [trieNodeInsert_chr]; rfl
        simp only [trieNodeInsert, h]
        rw [wfNode_iff]
        constructor
        · exact insert_sorted_children hasc hb habsent hchr'
        · refine wfNodeL_of_mem ?_
          intro u hu
          have := (mergeSortTnode_perm _).mem_iff.mp hu
          rcases List.mem_cons.mp this with rfl | hu'
          · exact hwfc'
          · exact hch u hu'

theorem findData_insert_self {n : TrieNode} {k v : List Nat} {now : Int}
    {s : Nat} (hwf : wfNode n = true) (hk : validKey k = true) :
    findData (trieNodeInsert now n k v s).1 k =
      some ⟨v, -NOTTL, now, now⟩ := by
  induction k generalizing n s with
  | nil =>
    cases n with
    | node c nd ch =>
      cases nd <;>
        simp [trieNodeInsert, findData, trieNodeFind, TrieNode.ndata]
  | cons b bs ih =>
    rcases validKey_cons.mp hk with ⟨hb, hk'⟩
    cases n with
    | node c nd ch =>
      rcases wfNode_children hwf with ⟨hasc, hch⟩
      simp only [TrieNode.children] at hasc hch
      have hbd : ∀ u ∈ ch, u.chr < 256 :=
        fun u hu => (chrsAscending_bounds hasc u hu).2
      cases h : linearSearch ch (sgn b) with
      | some child =>
        rcases linearSearch_some h with ⟨hmem, hse⟩
        have hcb : child.chr = b := sgn_inj (hbd child hmem) hb.2 hse
        have hchr' : (trieNodeInsert now child bs v s).1.chr = b := by
          rw [trieNodeInsert_chr, hcb]
        have hls := linearSearch_replaceFirst_self hbd hb.2 h hchr'
        simp only [trieNodeInsert, h, findData, trieNodeFind,
          TrieNode.children, hls]
        exact ih (hch child hmem) hk'
      | none =>
        have habsent := linearSearch_absent hasc h
        have hwfsub : wfNode (.node b none []) = true := rfl
        have hchr' : (trieNodeInsert now (.node b none []) bs v s).1.chr = b := by
          rw [trieNodeInsert_chr]; rfl
        have hasc' := insert_sorted_children hasc hb habsent hchr'
        have hmem' : (trieNodeInsert now (.node b none []) bs v s).1 ∈
            mergeSortTnode ((trieNodeInsert now (.node b none []) bs v s).1 :: ch) :=
          (mergeSortTnode_perm _).mem_iff.mpr (List.mem_cons_self _ _)
        have hls := linearSearch_mem hasc' hmem' hchr'
        simp only [trieNodeInsert, h, findData, trieNodeFind,
          TrieNode.children, hls]
        exact ih hwfsub hk'

theorem trieFind_eq (t : Trie) (k : List Nat) :
    trieFind t k = findData t.root k := by
  cases h : trieNodeFind t.root k <;> simp [trieFind, findData, h]

theorem trieNodeFind_append (n : TrieNode) (p q : List Nat) :
    trieNodeFind n (p ++ q) =
      (trieNodeFind n p).bind fun m => trieNodeFind m q := by
  induction p generalizing n with
  | nil => simp [trieNodeFind]
  | cons b bs ih =>
    cases n with
    | node c nd ch =>
      simp only [List.cons_append, trieNodeFind, TrieNode.children]
      cases h : linearSearch ch (sgn b) <;> simp [h, ih]

theorem trieNodeFind_wf {n m : TrieNode} {p : List Nat}
    (hwf : wfNode n = true) (h : trieNodeFind n p = some m) :
    wfNode m = true := by
  induction p generalizing n with
  | nil =>
    simp only [trieNodeFind] at h
    cases h
    exact hwf
  | cons b bs ih =>
    cases n with
    | node c nd ch =>
      simp only [trieNodeFind, TrieNode.children] at h
      cases hls : linearSearch ch (sgn b) with
      | none => rw [hls] at h; cases h
      | some child =>
        rw [hls] at h
        exact ih ((wfNode_children hwf).2 child (linearSearch_some hls).1) h

/-! ## Lemmas: rebuilding a node along a path (`setNodeAtPath`)

The C code mutates a node it reached through a pointer; the model
re-applies the mutation at the node's path.  The lemma below
characterises the result: the rebuilt tree looks up exactly like the
old one outside the modified subtree, and like the modified subtree
below the path. -/

theorem snap_spec {n m : TrieNode} {p : List Nat} {f : TrieNode → TrieNode}
    (hwf : wfNode n = true) (hp : validKey p = true)
    (hfind : trieNodeFind n p = some m) (hf : (f m).chr = m.chr) :
    (setNodeAtPath n p f).chr = n.chr ∧
    trieNodeFind (setNodeAtPath n p f) p = some (f m) ∧
    (∀ q, validKey q = true →
      findData (setNodeAtPath n p f) q =
        if p.isPrefixOf q then findData (f m) (q.drop p.length)
        else findData n q) ∧
    (wfNode (f m) = true → wfNode (setNodeAtPath n p f) = true) := by
  induction p generalizing n with
  | nil =>
    simp only [trieNodeFind] at hfind
    cases hfind
    simp only [setNodeAtPath]
    refine ⟨hf, rfl, ?_, fun h => h⟩
    intro q _
    simp [List.isPrefixOf]
  | cons b bs ih =>
    rcases validKey_cons.mp hp with ⟨hb, hp'⟩
    cases n with
    | node c nd ch =>
      rcases wfNode_children hwf with ⟨hasc, hch⟩
      simp only [TrieNode.children] at hasc hch
      have hbd : ∀ u ∈ ch, u.chr < 256 :=
        fun u hu => (chrsAscending_bounds hasc u hu).2
      simp only [trieNodeFind, TrieNode.children] at hfind
      cases hls : linearSearch ch (sgn b) with
      | none => rw [hls] at hfind; cases hfind
      | some child =>
        rw [hls] at hfind
        rcases linearSearch_some hls with ⟨hmem, hse⟩
        have hcb : child.chr = b := sgn_inj (hbd child hmem) hb.2 hse
        have hwfc : wfNode child = true := hch child hmem
        rcases ih hwfc hp' hfind with ⟨ihchr, ihfind, ihq, ihwf⟩
        have hsubchr : (setNodeAtPath child bs f).chr = b := by
          rw [ihchr, hcb]
        have hset : setNodeAtPath (.node c nd ch) (b :: bs) f =
            .node c nd (replaceFirst ch b (setNodeAtPath child bs f)) := by
          simp [setNodeAtPath, TrieNode.children, hls]
        have hlsnew := linearSearch_replaceFirst_self hbd hb.2 hls hsubchr
        refine ⟨by rw [hset]; rfl, ?_, ?_, ?_⟩
        · rw [hset]
          simp only [trieNodeFind, TrieNode.children, hlsnew]
          exact ihfind
        · intro q hq
          rw [hset]
          cases q with
          | nil =>
            simp [findData, trieNodeFind, List.isPrefixOf, TrieNode.ndata]
          | cons b' qs =>
            rcases validKey_cons.mp hq with ⟨hb', hq'⟩
            by_cases hbb : b' = b
            · subst hbb
              simp only [findData, trieNodeFind, TrieNode.children, hlsnew,
                hls, List.isPrefixOf, beq_self_eq_true, Bool.true_and,
                List.length_cons, List.drop_succ_cons]
              exact ihq qs hq'
            · have hvne : sgn b' ≠ sgn b := by
                intro hcontra
                exact hbb (sgn_inj hb'.2 hb.2 hcontra)
              have hlsother :=
                linearSearch_replaceFirst_other (v := sgn b') hbd hsubchr hvne
              have hpref : ¬((b :: bs).isPrefixOf (b' :: qs) = true) := by
                simp only [List.isPrefixOf, Bool.and_eq_true, beq_iff_eq]
                intro hcontra
                exact hbb hcontra.1.symm
              rw [if_neg hpref]
              simp only [findData, trieNodeFind, TrieNode.children, hlsother]
        · intro hwfm
          rw [hset, wfNode_iff]
          constructor
          · rw [chrsAscending_congr (replaceFirst_map_chr hsubchr)]
            exact hasc
          · refine wfNodeL_of_mem ?_
            intro u hu
            rcases replaceFirst_mem hu with hu' | rfl
            · exact hch u hu'
            · exact ihwf hwfm

/-! ## Lemmas: prefix set and prefix inc/dec as item maps -/

theorem isPrefixOf_append_drop {p k : List Nat}
    (h : p.isPrefixOf k = true) : p ++ k.drop p.length = k := by
  induction p generalizing k with
  | nil => simp
  | cons b bs ih =>
    cases k with
    | nil => simp [List.isPrefixOf] at h
    | cons b' ks =>
      simp only [List.isPrefixOf, Bool.and_eq_true, beq_iff_eq] at h
      obtain ⟨rfl, h2⟩ := h
      simp only [List.length_cons, List.drop_succ_cons, List.cons_append]
      rw [ih h2]

theorem findData_none_of_prefix {n : TrieNode} {p k : List Nat}
    (hfind : trieNodeFind n p = none) (hpk : p.isPrefixOf k = true) :
    findData n k = none := by
  rw [← isPrefixOf_append_drop hpk]
  simp [findData, trieNodeFind_append, hfind]

theorem findData_drop_of_prefix {n m : TrieNode} {p k : List Nat}
    (hfind : trieNodeFind n p = some m) (hpk : p.isPrefixOf k = true) :
    findData n k = findData m (k.drop p.length) := by
  conv =>
    lhs
    rw [← isPrefixOf_append_drop hpk]
  simp [findData, trieNodeFind_append, hfind]

theorem trieNodeSetAll_chr (now ttl : Int) (v : List Nat) (t : TrieNode) :
    (trieNodeSetAll now ttl v t).chr = t.chr := by
  cases t with
  | node c nd ch => cases nd <;> rfl

theorem linearSearch_setAll (now ttl : Int) (v : List Nat)
    (ch : List TrieNode) (w : Int) :
    linearSearch (trieNodeSetAllL now ttl v ch) w =
      (linearSearch ch w).map (trieNodeSetAll now ttl v) := by
  induction ch with
  | nil => rfl
  | cons t ts ih =>
    simp only [trieNodeSetAllL, linearSearch, trieNodeSetAll_chr]
    split
    · rfl
    · split
      · rfl
      · exact ih

theorem findData_setAll (now ttl : Int) (v : List Nat) (m : TrieNode)
    (q : List Nat) :
    findData (trieNodeSetAll now ttl v m) q =
      (findData m q).map fun d => ⟨v, ttl, d.ctime, now⟩ := by
  induction q generalizing m with
  | nil =>
    cases m with
    | node c nd ch =>
      cases nd <;>
        simp [trieNodeSetAll, findData, trieNodeFind, TrieNode.ndata]
  | cons b qs ih =>
    cases m with
    | node c nd ch =>
      have hch : (trieNodeSetAll now ttl v (.node c nd ch)).children =
          trieNodeSetAllL now ttl v ch := by
        cases nd <;> rfl
      cases hls : linearSearch ch (sgn b) with
      | none =>
        have h1 : findData (.node c nd ch) (b :: qs) = none := by
          simp [findData, trieNodeFind, TrieNode.children, hls]
        have h2 : findData (trieNodeSetAll now ttl v (.node c nd ch))
            (b :: qs) = none := by
          simp [findData, trieNodeFind, hch, linearSearch_setAll, hls]
        rw [h1, h2]
        rfl
      | some child =>
        have h1 : findData (.node c nd ch) (b :: qs) = findData child qs := by
          simp [findData, trieNodeFind, TrieNode.children, hls]
        have h2 : findData (trieNodeSetAll now ttl v (.node c nd ch))
            (b :: qs) = findData (trieNodeSetAll now ttl v child) qs := by
          simp [findData, trieNodeFind, hch, linearSearch_setAll, hls]
        rw [h1, h2, ih child]

theorem trieNodeIntegerMod_chr (now : Int) (inc : Bool) (t : TrieNode) :
    (trieNodeIntegerMod now inc t).chr = t.chr := by
  cases t with
  | node c nd ch =>
    cases nd with
    | none => rfl
    | some d =>
      simp only [trieNodeIntegerMod]
      split <;> rfl

theorem linearSearch_integerMod (now : Int) (inc : Bool)
    (ch : List TrieNode) (w : Int) :
    linearSearch (trieNodeIntegerModL now inc ch) w =
      (linearSearch ch w).map (trieNodeIntegerMod now inc) := by
  induction ch with
  | nil => rfl
  | cons t ts ih =>
    simp only [trieNodeIntegerModL, linearSearch, trieNodeIntegerMod_chr]
    split
    · rfl
    · split
      · rfl
      · exact ih

theorem findData_integerMod (now : Int) (inc : Bool) (m : TrieNode)
    (q : List Nat) :
    findData (trieNodeIntegerMod now inc m) q =
      (findData m q).map (integerModData now inc) := by
  induction q generalizing m with
  | nil =>
    cases m with
    | node c nd ch =>
      cases nd with
      | none => simp [trieNodeIntegerMod, findData, trieNodeFind, TrieNode.ndata]
      | some d =>
        simp only [trieNodeIntegerMod, integerModData]
        split <;>
          simp_all [findData, trieNodeFind, TrieNode.ndata, integerModData]
  | cons b qs ih =>
    cases m with
    | node c nd ch =>
      have hch : (trieNodeIntegerMod now inc (.node c nd ch)).children =
          trieNodeIntegerModL now inc ch := by
        cases nd with
        | none => rfl
        | some d =>
          simp only [trieNodeIntegerMod]
          split <;> rfl
      cases hls : linearSearch ch (sgn b) with
      | none =>
        have h1 : findData (.node c nd ch) (b :: qs) = none := by
          simp [findData, trieNodeFind, TrieNode.children, hls]
        have h2 : findData (trieNodeIntegerMod now inc (.node c nd ch))
            (b :: qs) = none := by
          simp [findData, trieNodeFind, hch, linearSearch_integerMod, hls]
        rw [h1, h2]
        rfl
      | some child =>
        have h1 : findData (.node c nd ch) (b :: qs) = findData child qs := by
          simp [findData, trieNodeFind, TrieNode.children, hls]
        have h2 : findData (trieNodeIntegerMod now inc (.node c nd ch))
            (b :: qs) = findData (trieNodeIntegerMod now inc child) qs := by
          simp [findData, trieNodeFind, hch, linearSearch_integerMod, hls]
        rw [h1, h2, ih child]

/-! ## Lemmas: enumeration order -/

theorem trieNodeEnumL_mem {ch : List TrieNode} {str k : List Nat}
    (h : k ∈ trieNodeEnumL ch str) :
    ∃ u ∈ ch, k ∈ trieNodeEnum u (str ++ [u.chr]) := by
  induction ch with
  | nil => cases h
  | cons t ts ih =>
    simp only [trieNodeEnumL, List.mem_append] at h
    rcases h with h | h
    · exact ⟨t, List.mem_cons_self t ts, h⟩
    · rcases ih h with ⟨u, hu, hk⟩
      exact ⟨u, List.mem_cons_of_mem t hu, hk⟩

theorem trieNodeEnum_extends :
    ∀ (n : TrieNode) (str k : List Nat), k ∈ trieNodeEnum n str →
      str.isPrefixOf k = true := by
  intro n
  induction n using TrieNode.recMem with
  | h c nd ch ih =>
    intro str k hk
    cases nd with
    | none =>
      simp only [trieNodeEnum, List.nil_append] at hk
      rcases trieNodeEnumL_mem hk with ⟨u, hu, hk'⟩
      have h1 := ih u hu (str ++ [u.chr]) k hk'
      have h2 : (str ++ [u.chr]).isPrefixOf k = true := h1
      refine List.isPrefixOf_iff_prefix.mpr ?_
      exact (List.prefix_append str [u.chr]).trans
        (List.isPrefixOf_iff_prefix.mp h2)
    | some d =>
      simp only [trieNodeEnum, List.singleton_append, List.mem_cons] at hk
      rcases hk with rfl | hk
      · exact List.isPrefixOf_iff_prefix.mpr (List.prefix_refl k)
      · rcases trieNodeEnumL_mem hk with ⟨u, hu, hk'⟩
        have h1 := ih u hu (str ++ [u.chr]) k hk'
        refine List.isPrefixOf_iff_prefix.mpr ?_
        exact (List.prefix_append str [u.chr]).trans
          (List.isPrefixOf_iff_prefix.mp h1)

theorem sgnLexLe_of_isPrefixOf {s k : List Nat}
    (h : s.isPrefixOf k = true) : sgnLexLe s k = true := by
  induction s generalizing k with
  | nil => rfl
  | cons b bs ih =>
    cases k with
    | nil => simp [List.isPrefixOf] at h
    | cons b' ks =>
      simp only [List.isPrefixOf, Bool.and_eq_true, beq_iff_eq] at h
      obtain ⟨rfl, h2⟩ := h
      simp only [sgnLexLe]
      rw [if_neg (lt_irrefl _), if_neg (lt_irrefl _)]
      exact ih h2

theorem sgnLexLe_append_lt {s : List Nat} {c1 c2 : Nat} {x y : List Nat}
    (h : sgn c1 < sgn c2) :
    sgnLexLe (s ++ c1 :: x) (s ++ c2 :: y) = true := by
  induction s with
  | nil => simp [sgnLexLe, h]
  | cons b bs ih =>
    simp only [List.cons_append, sgnLexLe]
    rw [if_neg (lt_irrefl _), if_neg (lt_irrefl _)]
    exact ih

theorem enum_cross {str : List Nat} {c1 c2 : Nat} {a b : List Nat}
    (hc : sgn c1 < sgn c2)
    (ha : (str ++ [c1]).isPrefixOf a = true)
    (hb : (str ++ [c2]).isPrefixOf b = true) :
    sgnLexLe a b = true := by
  rcases List.isPrefixOf_iff_prefix.mp ha with ⟨x, rfl⟩
  rcases List.isPrefixOf_iff_prefix.mp hb with ⟨y, rfl⟩
  rw [List.append_assoc, List.append_assoc]
  exact sgnLexLe_append_lt hc

theorem trieNodeEnumL_sorted {ch : List TrieNode}
    (ihm : ∀ u ∈ ch, ∀ str',
      (trieNodeEnum u str').Pairwise fun a b => sgnLexLe a b = true)
    (hp : ch.Pairwise fun a b => sgn a.chr < sgn b.chr) :
    ∀ str, (trieNodeEnumL ch str).Pairwise
      fun a b => sgnLexLe a b = true := by
  induction ch with
  | nil => intro str; exact List.Pairwise.nil
  | cons t ts ih =>
    intro str
    simp only [trieNodeEnumL]
    rw [List.pairwise_append]
    refine ⟨ihm t (List.mem_cons_self t ts) (str ++ [t.chr]),
      ih (fun u hu => ihm u (List.mem_cons_of_mem t hu)) hp.of_cons str,
      ?_⟩
    intro a ha b hb
    rcases trieNodeEnumL_mem hb with ⟨u, hu, hbu⟩
    have hc : sgn t.chr < sgn u.chr := (List.pairwise_cons.mp hp).1 u hu
    exact enum_cross hc (trieNodeEnum_extends t _ a ha)
      (trieNodeEnum_extends u _ b hbu)

theorem trieNodeEnum_sorted :
    ∀ (n : TrieNode), wfNode n = true → ∀ (str : List Nat),
      (trieNodeEnum n str).Pairwise fun a b => sgnLexLe a b = true := by
  intro n
  induction n using TrieNode.recMem with
  | h c nd ch ih =>
    intro hwf str
    rcases wfNode_children hwf with ⟨hasc, hch⟩
    simp only [TrieNode.children] at hasc hch
    have hl := trieNodeEnumL_sorted
      (fun u hu str' => ih u hu (hch u hu) str')
      (chrsAscending_pairwise hasc) str
    cases nd with
    | none => simpa only [trieNodeEnum, List.nil_append] using hl
    | some d =>
      simp only [trieNodeEnum, List.singleton_append]
      refine List.Pairwise.cons ?_ hl
      intro b hb
      rcases trieNodeEnumL_mem hb with ⟨u, hu, hbu⟩
      have h1 := trieNodeEnum_extends u _ b hbu
      refine sgnLexLe_of_isPrefixOf ?_
      refine List.isPrefixOf_iff_prefix.mpr ?_
      exact (List.prefix_append str [u.chr]).trans
        (List.isPrefixOf_iff_prefix.mp h1)

theorem ascendingBy_of_pairwise {le : List Nat → List Nat → Bool}
    {l : List (List Nat)} (h : l.Pairwise fun a b => le a b = true) :
    ascendingBy le l = true := by
  induction l with
  | nil => rfl
  | cons a rest ih =>
    cases rest with
    | nil => rfl
    | cons b rest' =>
      simp only [ascendingBy, Bool.and_eq_true]
      exact ⟨(List.pairwise_cons.mp h).1 b (List.mem_cons_self b rest'),
        ih h.of_cons⟩

/-! ## Lemmas: delete -/

theorem removeFirstChr_sublist (ch : List TrieNode) (b : Nat) :
    (removeFirstChr ch b).Sublist ch := by
  induction ch with
  | nil => exact List.Sublist.refl _
  | cons t ts ih =>
    simp only [removeFirstChr]
    split
    · exact List.sublist_cons_self t ts
    · exact ih.cons₂ t

theorem removeFirstChr_mem_of_ne {ch : List TrieNode} {b : Nat}
    {u : TrieNode} (hu : u ∈ ch) (hne : u.chr ≠ b) :
    u ∈ removeFirstChr ch b := by
  induction ch with
  | nil => cases hu
  | cons t ts ih =>
    simp only [removeFirstChr]
    split
    · rename_i hc
      rcases List.mem_cons.mp hu with rfl | hu'
      · exact absurd hc hne
      · exact hu'
    · rcases List.mem_cons.mp hu with rfl | hu'
      · exact List.mem_cons_self _ _
      · exact List.mem_cons_of_mem t (ih hu')

theorem removeFirstChr_chr_ne {ch : List TrieNode} {b : Nat}
    (hasc : chrsAscending ch = true) :
    ∀ u ∈ removeFirstChr ch b, u.chr ≠ b := by
  induction ch with
  | nil => intro u hu; cases hu
  | cons t ts ih =>
    intro u hu
    simp only [removeFirstChr] at hu
    split at hu
    · rename_i hc
      have hlt := chrsAscending_head_lt hasc u hu
      intro hcc
      rw [hc] at hlt
      rw [hcc] at hlt
      exact lt_irrefl _ hlt
    · rcases List.mem_cons.mp hu with rfl | hu'
      · rename_i hc; exact hc
      · exact ih (chrsAscending_cons hasc).2 u hu'

theorem linearSearch_none_of {ch : List TrieNode} {b : Nat}
    (hbd : ∀ u ∈ ch, u.chr < 256) (hb : b < 256)
    (h : ∀ u ∈ ch, u.chr ≠ b) : linearSearch ch (sgn b) = none := by
  induction ch with
  | nil => rfl
  | cons t ts ih =>
    simp only [linearSearch]
    split
    · rename_i heq
      exact absurd
        (sgn_inj (hbd t (List.mem_cons_self t ts)) hb heq)
        (h t (List.mem_cons_self t ts))
    · split
      · rfl
      · exact ih (fun u hu => hbd u (List.mem_cons_of_mem t hu))
          (fun u hu => h u (List.mem_cons_of_mem t hu))

theorem chrsAscending_sublist {ch ch' : List TrieNode}
    (hsub : ch'.Sublist ch) (hasc : chrsAscending ch = true) :
    chrsAscending ch' = true :=
  chrsAscending_of ((chrsAscending_pairwise hasc).sublist hsub)
    fun u hu => chrsAscending_bounds hasc u (hsub.mem hu)

theorem findData_of_find {n m : TrieNode} {p : List Nat}
    (h : trieNodeFind n p = some m) : findData n p = m.ndata := by
  simp [findData, h]

theorem itemCountL_mem_le {ch : List TrieNode} {t : TrieNode}
    (ht : t ∈ ch) : itemCount t ≤ itemCountL ch := by
  induction ch with
  | nil => cases ht
  | cons u ts ih =>
    rcases List.mem_cons.mp ht with rfl | ht'
    · simp [itemCountL]
    · simp only [itemCountL]
      exact le_add_of_nonneg_of_le (Nat.zero_le _) (ih ht')

theorem itemCount_find_le {n m : TrieNode} {p : List Nat}
    (h : trieNodeFind n p = some m) : itemCount m ≤ itemCount n := by
  induction p generalizing n with
  | nil =>
    simp only [trieNodeFind] at h
    cases h
    exact le_refl _
  | cons b bs ih =>
    cases n with
    | node c nd ch =>
      simp only [trieNodeFind, TrieNode.children] at h
      cases hls : linearSearch ch (sgn b) with
      | none => rw [hls] at h; cases h
      | some child =>
        rw [hls] at h
        refine le_trans (ih h) ?_
        refine le_trans (itemCountL_mem_le (linearSearch_some hls).1) ?_
        simp only [itemCount]
        exact Nat.le_add_left _ _

theorem trieNodeFreeSize_monus :
    ∀ (n : TrieNode) (s : Nat), trieNodeFreeSize n s = s - itemCount n := by
  intro n
  induction n using TrieNode.recMem with
  | h c nd ch ih =>
    intro s
    have hl : ∀ (ch' : List TrieNode), (∀ t ∈ ch', ∀ s',
        trieNodeFreeSize t s' = s' - itemCount t) → ∀ s',
        trieNodeFreeSizeL ch' s' = s' - itemCountL ch' := by
      intro ch' hm
      induction ch' with
      | nil => intro s'; simp [trieNodeFreeSizeL, itemCountL]
      | cons t ts ihl =>
        intro s'
        simp only [trieNodeFreeSizeL, itemCountL]
        rw [hm t (List.mem_cons_self t ts) s',
          ihl fun u hu => hm u (List.mem_cons_of_mem t hu)]
        omega
    simp only [trieNodeFreeSize, itemCount]
    rw [hl ch (fun t ht s' => ih t ht s') s]
    cases nd <;> simp <;> omega

theorem trieNodeFreeSizeL_monus :
    ∀ (ch : List TrieNode) (s : Nat),
      trieNodeFreeSizeL ch s = s - itemCountL ch := by
  intro ch
  induction ch with
  | nil => intro s; simp [trieNodeFreeSizeL, itemCountL]
  | cons t ts ih =>
    intro s
    simp only [trieNodeFreeSizeL, itemCountL]
    rw [trieNodeFreeSize_monus t s, ih]
    omega

theorem findData_nil (c : Nat) (nd : Option NodeData)
    (ch : List TrieNode) : findData (.node c nd ch) [] = nd := by
  simp [findData, trieNodeFind, TrieNode.ndata]

theorem findData_cons (c : Nat) (nd : Option NodeData)
    (ch : List TrieNode) (b : Nat) (qs : List Nat) :
    findData (.node c nd ch) (b :: qs) =
      match linearSearch ch (sgn b) with
      | none => none
      | some m => findData m qs := by
  cases hls : linearSearch ch (sgn b) <;>
    simp [findData, trieNodeFind, TrieNode.children, hls]

theorem findData_dead {n : TrieNode} (hnd : n.ndata = none)
    (hch : n.children = []) (q : List Nat) : findData n q = none := by
  cases n with
  | node c nd ch =>
    simp only [TrieNode.ndata] at hnd
    simp only [TrieNode.children] at hch
    subst hnd hch
    cases q with
    | nil => exact findData_nil c none []
    | cons b qs => rw [findData_cons]; rfl

/-- Full characterisation of `trie_node_recursive_delete` on a
well-formed subtree: the found flag reports whether the key's item
existed, the size is decremented exactly when it did, the subtree
keeps its label and well-formedness, a node that reports prunable is
dead, and a lookup in the result behaves like the old subtree except
that the deleted key is gone. -/
theorem recDelete_spec {n : TrieNode} {k : List Nat} {s : Nat}
    (hwf : wfNode n = true) (hk : validKey k = true) :
    (trieNodeRecDelete n k s).2.2.1 = (findData n k).isSome ∧
    (trieNodeRecDelete n k s).2.1 =
      (if (findData n k).isSome then s - 1 else s) ∧
    (trieNodeRecDelete n k s).1.chr = n.chr ∧
    wfNode (trieNodeRecDelete n k s).1 = true ∧
    ((trieNodeRecDelete n k s).2.2.2 = true →
      (trieNodeRecDelete n k s).1.ndata = none ∧
      (trieNodeRecDelete n k s).1.children = []) ∧
    (∀ q, validKey q = true →
      findData (trieNodeRecDelete n k s).1 q =
        if q = k then none else findData n q) := by
  induction k generalizing n s with
  | nil =>
    cases n with
    | node c nd ch =>
      cases nd with
      | some d =>
        simp only [trieNodeRecDelete]
        refine ⟨?_, ?_, rfl, ?_, ?_, ?_⟩
        · rw [findData_nil]; rfl
        · rw [findData_nil]; rfl
        · rw [wfNode_iff] at hwf ⊢; exact hwf
        · intro hpr
          refine ⟨rfl, ?_⟩
          simpa [TrieNode.children, List.isEmpty_iff] using hpr
        · intro q _
          cases q with
          | nil => rw [if_pos rfl, findData_nil]
          | cons b' qs =>
            rw [if_neg (by simp), findData_cons, findData_cons]
      | none =>
        have hred : trieNodeRecDelete (.node c none ch) [] s =
            (.node c none ch, s, false, false) := by
          simp [trieNodeRecDelete]
        rw [hred]
        refine ⟨?_, ?_, rfl, hwf, ?_, ?_⟩
        · rw [findData_nil]; rfl
        · rw [findData_nil]; rfl
        · intro hpr; cases hpr
        · intro q _
          cases q with
          | nil => rw [if_pos rfl, findData_nil]
          | cons b' qs => rw [if_neg (by simp)]
  | cons b bs ih =>
    rcases validKey_cons.mp hk with ⟨hb, hk'⟩
    cases n with
    | node c nd ch =>
      rcases wfNode_children hwf with ⟨hasc, hch⟩
      simp only [TrieNode.children] at hasc hch
      have hbd : ∀ u ∈ ch, u.chr < 256 :=
        fun u hu => (chrsAscending_bounds hasc u hu).2
      cases hls : linearSearch ch (sgn b) with
      | none =>
        have hfd : findData (.node c nd ch) (b :: bs) = none := by
          rw [findData_cons, hls]
        have hred : trieNodeRecDelete (.node c nd ch) (b :: bs) s =
            (.node c nd ch, s, false, false) := by
          simp [trieNodeRecDelete, hls]
        rw [hred]
        refine ⟨?_, ?_, rfl, hwf, ?_, ?_⟩
        · rw [hfd]; rfl
        · rw [hfd]; rfl
        · intro hpr; cases hpr
        · intro q _
          by_cases hqk : q = b :: bs
          · subst hqk; rw [if_pos rfl, hfd]
          · rw [if_neg hqk]
      | some child =>
        rcases linearSearch_some hls with ⟨hmem, hse⟩
        have hcb : child.chr = b := sgn_inj (hbd child hmem) hb.2 hse
        have hwfc : wfNode child = true := hch child hmem
        rcases ih (n := child) (s := s) hwfc hk' with
          ⟨iA, iB, iC, iD, iE, iF⟩
        have hfd : findData (.node c nd ch) (b :: bs) = findData child bs := by
          rw [findData_cons, hls]
        cases hpr : (trieNodeRecDelete child bs s).2.2.2 with
        | true =>
          obtain ⟨hdn, hdc⟩ := iE hpr
          have hred : trieNodeRecDelete (.node c nd ch) (b :: bs) s =
              (.node c nd (removeFirstChr ch b),
               (trieNodeRecDelete child bs s).2.1,
               (trieNodeRecDelete child bs s).2.2.1,
               nd.isNone && (removeFirstChr ch b).isEmpty) := by
            simp [trieNodeRecDelete, hls, hpr]
          have hsub := removeFirstChr_sublist ch b
          have hasc' : chrsAscending (removeFirstChr ch b) = true :=
            chrsAscending_sublist hsub hasc
          have hbd' : ∀ u ∈ removeFirstChr ch b, u.chr < 256 :=
            fun u hu => hbd u (hsub.mem hu)
          rw [hred]
          refine ⟨by rw [iA, hfd], by rw [iB, hfd], rfl, ?_, ?_, ?_⟩
          · rw [wfNode_iff]
            exact ⟨hasc', wfNodeL_of_mem fun u hu => hch u (hsub.mem hu)⟩
          · intro hpq
            simp only [Bool.and_eq_true, Option.isNone_iff_eq_none,
              List.isEmpty_iff] at hpq
            exact ⟨hpq.1, hpq.2⟩
          · intro q hq
            cases q with
            | nil =>
              rw [if_neg (by simp), findData_nil, findData_nil]
            | cons b' qs =>
              rcases validKey_cons.mp hq with ⟨hb', hq'⟩
              by_cases hbb : b' = b
              · subst hbb
                have hlsnone : linearSearch (removeFirstChr ch b') (sgn b') =
                    none :=
                  linearSearch_none_of hbd' hb.2 (removeFirstChr_chr_ne hasc)
                rw [findData_cons, hlsnone]
                by_cases hqs : qs = bs
                · subst hqs; rw [if_pos rfl]
                · rw [if_neg (by simp [hqs])]
                  have hfd2 : findData (.node c nd ch) (b' :: qs) =
                      findData child qs := by rw [findData_cons, hls]
                  rw [hfd2]
                  have h1 := iF qs hq'
                  rw [if_neg hqs, findData_dead hdn hdc qs] at h1
                  exact h1
              · have hvne : sgn b' ≠ sgn b := fun hcc =>
                  hbb (sgn_inj hb'.2 hb.2 hcc)
                have hlseq : linearSearch (removeFirstChr ch b) (sgn b') =
                    linearSearch ch (sgn b') := by
                  cases hls' : linearSearch ch (sgn b') with
                  | none =>
                    refine linearSearch_none_of hbd' hb'.2 ?_
                    intro u hu
                    exact linearSearch_absent hasc hls' u (hsub.mem hu)
                  | some u =>
                    rcases linearSearch_some hls' with ⟨humem, huse⟩
                    have hub' : u.chr = b' :=
                      sgn_inj (hbd u humem) hb'.2 huse
                    refine linearSearch_mem hasc' ?_ hub'
                    exact removeFirstChr_mem_of_ne humem (by rw [hub']; exact hbb)
                rw [if_neg (by simp [hbb]), findData_cons, findData_cons, hlseq]
        | false =>
          have hred : trieNodeRecDelete (.node c nd ch) (b :: bs) s =
              (.node c nd
                 (replaceFirst ch b (trieNodeRecDelete child bs s).1),
               (trieNodeRecDelete child bs s).2.1,
               (trieNodeRecDelete child bs s).2.2.1, false) := by
            simp [trieNodeRecDelete, hls, hpr]
          have hchr' : (trieNodeRecDelete child bs s).1.chr = b := by
            rw [iC, hcb]
          rw [hred]
          refine ⟨by rw [iA, hfd], by rw [iB, hfd], rfl, ?_, ?_, ?_⟩
          · rw [wfNode_iff]
            constructor
            · rw [chrsAscending_congr (replaceFirst_map_chr hchr')]
              exact hasc
            · refine wfNodeL_of_mem ?_
              intro u hu
              rcases replaceFirst_mem hu with hu' | rfl
              · exact hch u hu'
              · exact iD
          · intro hpq; cases hpq
          · intro q hq
            cases q with
            | nil =>
              rw [if_neg (by simp), findData_nil, findData_nil]
            | cons b' qs =>
              rcases validKey_cons.mp hq with ⟨hb', hq'⟩
              by_cases hbb : b' = b
              · subst hbb
                have hlsnew :=
                  linearSearch_replaceFirst_self hbd hb.2 hls hchr'
                rw [findData_cons, hlsnew]
                by_cases hqs : qs = bs
                · subst hqs
                  rw [if_pos rfl]
                  have h1 := iF qs hq'
                  rw [if_pos rfl] at h1
                  exact h1
                · rw [if_neg (by simp [hqs]), findData_cons, hls]
                  have h1 := iF qs hq'
                  rw [if_neg hqs] at h1
                  exact h1
              · have hvne : sgn b' ≠ sgn b := fun hcc =>
                  hbb (sgn_inj hb'.2 hb.2 hcc)
                have hlsother :=
                  linearSearch_replaceFirst_other (v := sgn b') hbd hchr' hvne
                rw [if_neg (by simp [hbb]), findData_cons, findData_cons,
                  hlsother]

/-- When the deleted key's node still has children, the recursive
delete prunes nothing: it only removes the terminal node's item, and
the whole call is the path-rebuild `setNodeAtPath` with the item
dropped.  This is the shape `trie_prefix_delete` relies on after it
has destroyed the children's subtrees (the children list still has
its length at that point, so `trie_is_free_node` is false). -/
theorem recDelete_as_snap {n m : TrieNode} {k : List Nat} {s : Nat}
    (hne : k ≠ []) (hfind : trieNodeFind n k = some m)
    (hch : m.children ≠ []) :
    (trieNodeRecDelete n k s).1 =
      setNodeAtPath n k (fun t => .node t.chr none t.children) ∧
    (trieNodeRecDelete n k s).2.1 =
      (if m.ndata.isSome then s - 1 else s) ∧
    (trieNodeRecDelete n k s).2.2.1 = m.ndata.isSome ∧
    (trieNodeRecDelete n k s).2.2.2 = false := by
  induction k generalizing n s with
  | nil => exact absurd rfl hne
  | cons b bs ih =>
    cases n with
    | node c nd ch =>
      simp only [trieNodeFind, TrieNode.children] at hfind
      cases hls : linearSearch ch (sgn b) with
      | none => rw [hls] at hfind; cases hfind
      | some child =>
        rw [hls] at hfind
        cases bs with
        | nil =>
          simp only [trieNodeFind] at hfind
          cases hfind
          cases m with
          | node cm ndm chm =>
            simp only [TrieNode.children] at hch
            have hie : chm.isEmpty = false := by
              cases chm with
              | nil => exact absurd rfl hch
              | cons _ _ => rfl
            cases ndm with
            | some d =>
              have hred : trieNodeRecDelete (.node c nd ch) [b] s =
                  (.node c nd (replaceFirst ch b (.node cm none chm)),
                   s - 1, true, false) := by
                simp [trieNodeRecDelete, hls, hie]
              have hsnap : setNodeAtPath (.node c nd ch) [b]
                  (fun t => .node t.chr none t.children) =
                  .node c nd (replaceFirst ch b (.node cm none chm)) := by
                simp [setNodeAtPath, TrieNode.children, hls, TrieNode.chr]
              rw [hred, hsnap]
              exact ⟨rfl, rfl, rfl, rfl⟩
            | none =>
              have hred : trieNodeRecDelete (.node c nd ch) [b] s =
                  (.node c nd (replaceFirst ch b (.node cm none chm)),
                   s, false, false) := by
                simp [trieNodeRecDelete, hls, hie]
              have hsnap : setNodeAtPath (.node c nd ch) [b]
                  (fun t => .node t.chr none t.children) =
                  .node c nd (replaceFirst ch b (.node cm none chm)) := by
                simp [setNodeAtPath, TrieNode.children, hls, TrieNode.chr]
              rw [hred, hsnap]
              exact ⟨rfl, rfl, rfl, rfl⟩
        | cons b2 bs2 =>
          rcases ih (n := child) (s := s) (by simp) hfind with
            ⟨i1, i2, i3, i4⟩
          have hred : trieNodeRecDelete (.node c nd ch) (b :: b2 :: bs2) s =
              (.node c nd (replaceFirst ch b
                 (trieNodeRecDelete child (b2 :: bs2) s).1),
               (trieNodeRecDelete child (b2 :: bs2) s).2.1,
               (trieNodeRecDelete child (b2 :: bs2) s).2.2.1, false) := by
            simp [trieNodeRecDelete, hls, i4]
          have hsnap : setNodeAtPath (.node c nd ch) (b :: b2 :: bs2)
              (fun t => .node t.chr none t.children) =
              .node c nd (replaceFirst ch b (setNodeAtPath child (b2 :: bs2)
                (fun t => .node t.chr none t.children))) := by
            simp [setNodeAtPath, TrieNode.children, hls]
          rw [hred, hsnap, i1]
          exact ⟨rfl, i2, i3, rfl⟩

/-! ## Claim theorems -/

/-- C1: a point GET at time 5 of key k (stored at time 0 with ttl 1,
so its remaining time is -4 ≤ 0) does remove the key from the trie,
decrement both the trie size and the keyspace counter and reply
ACK(NOK) — but, contrary to the claim, `get_handler` leaves the
matching entry in the TTL index (`expiring_keys` is not touched on
the lazy-expiry path), so the entry now dangles. -/
theorem claim_c1_get_expired :
    (getHandler 5 statePutK [107]).2 = false ∧
    present (getHandler 5 statePutK [107]).1.trie [107] = false ∧
    (getHandler 5 statePutK [107]).1.trie.size = statePutK.trie.size - 1 ∧
    (getHandler 5 statePutK [107]).1.keyspaceSize =
      statePutK.keyspaceSize - 1 ∧
    (getHandler 5 statePutK [107]).1.expiringKeys = [⟨[107]⟩] := by
  decide

/-- C2: at time 50, key a (ctime 0, ttl 1) has signed remaining time
-49 and key b has 100 after its TTL is refreshed by `ttl_handler`;
because `compare_ttl` computes the deltas in `uint64_t`, the wrapped
delta of the expired entry is close to 2^64 and the sort puts it
last: the index after the mutation is [b, a], the front entry is not
the earliest-expiring one, and the forward scan of `expire_keys`
stops at the front entry and removes nothing although a due entry
exists. -/
theorem claim_c2_ttl_sort :
    (ttlHandler 50 stateAB [98] 100).1.expiringKeys = [⟨[98]⟩, ⟨[97]⟩] ∧
    (let st := (ttlHandler 50 stateAB [98] 100).1
     (derefNd st.trie ⟨[97]⟩).ctime + (derefNd st.trie ⟨[97]⟩).ttl - 50 ≤ 0 ∧
     (derefNd st.trie ⟨[98]⟩).ctime + (derefNd st.trie ⟨[98]⟩).ttl - 50 > 0 ∧
     (expireKeys 50 st).expiringKeys = st.expiringKeys ∧
     present (expireKeys 50 st).trie [97] = true) := by
  decide

/-- C3: sweeping `stateABC` at time 10, when entries a and b are both
due (remaining -9 and -8) and c is not (remaining 90), removes a —
but after `vector_delete` shifts b into slot 0 the loop counter moves
to 1, skipping b: the run ends with the due entry b still in the trie
and still in the TTL index, contrary to the claim that no due entry
before the first non-expired one is left behind. -/
theorem claim_c3_sweep :
    present (expireKeys 10 stateABC).trie [97] = false ∧
    present (expireKeys 10 stateABC).trie [98] = true ∧
    (expireKeys 10 stateABC).expiringKeys = [⟨[98]⟩, ⟨[99]⟩] ∧
    (derefNd stateABC.trie ⟨[98]⟩).ctime +
      (derefNd stateABC.trie ⟨[98]⟩).ttl - 10 ≤ 0 := by
  decide

/-- C4: both operations that the claim says must drop the TTL-index
entry leave it in place.  Deleting key k from `statePutK` via
`del_handler` removes the key from the trie but leaves its entry in
`expiring_keys` (now dangling); overwriting k via a point PUT without
TTL resets the item's ttl to the sentinel but also leaves the entry
in `expiring_keys` (whose item now has ttl -1 and is no longer meant
to expire). -/
theorem claim_c4_ttl_ref :
    (present (delHandlerSingle statePutK [107]).1.trie [107] = false ∧
     (delHandlerSingle statePutK [107]).1.expiringKeys = [⟨[107]⟩]) ∧
    ((trieFind (putDataIntoTrie 7 statePutK false [107] [119] 0).trie
        [107]).map NodeData.ttl = some (-1) ∧
     (putDataIntoTrie 7 statePutK false [107] [119] 0).expiringKeys =
       [⟨[107]⟩]) := by
  decide

/-- C5: on a well-formed trie, `trie_insert` of a non-empty key
followed immediately by `trie_find` of the same key yields an item
whose data is the inserted value, whose ttl is the `-NOTTL` sentinel
and whose `ctime` and `latime` equal the insertion time; the
`node_data` returned by `trie_insert` is that same item; and the
stored size grows by exactly one when the key was absent and is
unchanged when it was already present. -/
theorem claim_c5_insert_find {t : Trie} {key v : List Nat} {now : Int}
    (hwf : wfTrie t = true) (hk : validKey key = true)
    (_hne : key ≠ []) :
    trieFind (trieInsert t key v now).1 key =
      some ⟨v, -NOTTL, now, now⟩ ∧
    (trieInsert t key v now).2 = ⟨v, -NOTTL, now, now⟩ ∧
    (trieInsert t key v now).1.size =
      (if present t key then t.size else t.size + 1) := by
  refine ⟨?_, trieNodeInsert_retnd now t.root key v t.size, ?_⟩
  · rw [trieFind_eq]
    exact findData_insert_self hwf hk
  · show (trieNodeInsert now t.root key v t.size).2.1 = _
    rw [trieNodeInsert_size]
    simp only [present, trieFind_eq]

/-- C5 witness: concrete instance on the empty trie. -/
theorem claim_c5_witness :
    wfTrie trieCreate = true ∧ validKey [107] = true ∧
      [107] ≠ ([] : List Nat) ∧
    (trieFind (trieInsert trieCreate [107] [118] 3).1 [107] =
        some ⟨[118], -NOTTL, 3, 3⟩ ∧
      (trieInsert trieCreate [107] [118] 3).2 = ⟨[118], -NOTTL, 3, 3⟩ ∧
      (trieInsert trieCreate [107] [118] 3).1.size =
        (if present trieCreate [107] then trieCreate.size
         else trieCreate.size + 1)) :=
  ⟨by decide, by decide, by decide,
    claim_c5_insert_find (by decide) (by decide) (by decide)⟩

/-- C10: the trie interface is asymmetric on the empty key —
`trie_insert` of the empty key stores the item at the root
(incrementing the size when the root had no item), `trie_find` of the
empty key returns it, but `trie_delete` of the empty key is rejected
by the `strlen(key) > 0` guard: it returns false and changes
nothing, so an empty key can never be removed through delete. -/
theorem claim_c10_empty_key (t : Trie) (v : List Nat) (now : Int) :
    trieFind (trieInsert t [] v now).1 [] =
      some ⟨v, -NOTTL, now, now⟩ ∧
    (t.root.ndata = none →
      (trieInsert t [] v now).1.size = t.size + 1) ∧
    trieDelete t [] = (t, false) := by
  obtain ⟨root, size⟩ := t
  cases root with
  | node c nd ch =>
    refine ⟨?_, ?_, rfl⟩
    · cases nd <;>
        simp [trieInsert, trieNodeInsert, trieFind, trieNodeFind,
          TrieNode.ndata]
    · intro h
      simp only [TrieNode.ndata] at h
      subst h
      simp [trieInsert, trieNodeInsert]

/-- C10 witness: concrete instance on the empty trie. -/
theorem claim_c10_witness :
    trieFind (trieInsert trieCreate [] [118] 0).1 [] =
      some ⟨[118], -NOTTL, 0, 0⟩ ∧
    (trieInsert trieCreate [] [118] 0).1.size = trieCreate.size + 1 ∧
    trieDelete trieCreate [] = (trieCreate, false) :=
  ⟨(claim_c10_empty_key trieCreate [118] 0).1,
   (claim_c10_empty_key trieCreate [118] 0).2.1 (by decide),
   (claim_c10_empty_key trieCreate [118] 0).2.2⟩

/-- C7: `trie_prefix_set` is a pure frame on the key set — it
replaces data, ttl and latime exactly on the keys at or below the
prefix that already bear an item (keeping `ctime`), never creates an
item, leaves every other key's item untouched, and leaves the key set
(presence of every key) and the stored database size identical.  In
particular on an empty database it does nothing (the witness below is
that instance). -/
theorem claim_c7_set_frame {t : Trie} {p v : List Nat} {ttl now : Int}
    (hwf : wfTrie t = true) (hp : validKey p = true) :
    (triePrefixSet t p v ttl now).size = t.size ∧
    ∀ k, validKey k = true →
      present (triePrefixSet t p v ttl now) k = present t k ∧
      (p.isPrefixOf k = false →
        trieFind (triePrefixSet t p v ttl now) k = trieFind t k) ∧
      (p.isPrefixOf k = true →
        trieFind (triePrefixSet t p v ttl now) k =
          (trieFind t k).map fun d => ⟨v, ttl, d.ctime, now⟩) := by
  cases hfind : trieNodeFind t.root p with
  | none =>
    have ht' : triePrefixSet t p v ttl now = t := by
      simp [triePrefixSet, hfind]
    rw [ht']
    refine ⟨rfl, fun k hk => ⟨rfl, fun _ => rfl, fun hpk => ?_⟩⟩
    rw [trieFind_eq, findData_none_of_prefix hfind hpk]
    rfl
  | some m =>
    rcases snap_spec hwf hp hfind (trieNodeSetAll_chr now ttl v m) with
      ⟨_, _, hq, _⟩
    have hroot : (triePrefixSet t p v ttl now).root =
        setNodeAtPath t.root p (trieNodeSetAll now ttl v) := by
      simp [triePrefixSet, hfind]
    have hsize : (triePrefixSet t p v ttl now).size = t.size := by
      simp [triePrefixSet, hfind]
    refine ⟨hsize, fun k hk => ?_⟩
    have hq' := hq k hk
    refine ⟨?_, ?_, ?_⟩
    · simp only [present, trieFind_eq, hroot, hq']
      by_cases hpk : p.isPrefixOf k = true
      · rw [if_pos hpk, findData_setAll, findData_drop_of_prefix hfind hpk]
        cases findData m (k.drop p.length) <;> rfl
      · rw [if_neg hpk]
    · intro hpk
      have hnpk : ¬(p.isPrefixOf k = true) := by
        rw [hpk]; exact Bool.false_ne_true
      rw [trieFind_eq, trieFind_eq, hroot, hq', if_neg hnpk]
    · intro hpk
      rw [trieFind_eq, trieFind_eq, hroot, hq', if_pos hpk,
        findData_setAll, findData_drop_of_prefix hfind hpk]

/-- C7 witness: prefix PUT on the empty database leaves it empty
(the claim's own end-to-end instance: `PUT foo* 10` on an empty db,
then `GET foo*` finds nothing). -/
theorem claim_c7_witness :
    wfTrie trieCreate = true ∧ validKey [102, 111, 111] = true ∧
    validKey [102, 111, 111, 120] = true ∧
    (triePrefixSet trieCreate [102, 111, 111] [49, 48] 5 0).size =
      trieCreate.size ∧
    present (triePrefixSet trieCreate [102, 111, 111] [49, 48] 5 0)
        [102, 111, 111, 120] =
      present trieCreate [102, 111, 111, 120] :=
  ⟨by decide, by decide, by decide,
    (@claim_c7_set_frame trieCreate [102, 111, 111] [49, 48] 5 0
      (by decide) (by decide)).1,
    ((@claim_c7_set_frame trieCreate [102, 111, 111] [49, 48] 5 0
      (by decide) (by decide)).2 [102, 111, 111, 120] (by decide)).1⟩

/-- C8 (amended): `trie_prefix_inc` / `trie_prefix_dec` replace each
item at or below the prefix whose data consists solely of decimal
digit characters (accepted by `is_integer`; the empty string counts
and parses as 0) with the decimal text of the parsed value plus
(resp. minus) one, refreshing `latime`; every other item — including
one holding the textual representation of a negative integer, which
`is_integer` rejects because of the minus sign — is left completely
untouched, and no error is raised.  Keys outside the prefix keep their
items verbatim, and presence and size never change.  The `intFitsAt`
hypothesis confines the statement to the region where `parse_int`'s
C `int` accumulator and the computed successor cannot overflow
(parsed value `n` with `n + 1 < 2 ^ 31` for every digit-data item
under the prefix); outside it the C overflows `int` and its behaviour
is not modelled. -/
theorem claim_c8_amended {t : Trie} {p : List Nat} {inc : Bool}
    {now : Int} (hwf : wfTrie t = true) (hp : validKey p = true)
    (_hin : intFitsAt t p = true) :
    (triePrefixIntegerMod t p inc now).size = t.size ∧
    ∀ k, validKey k = true →
      present (triePrefixIntegerMod t p inc now) k = present t k ∧
      (p.isPrefixOf k = false →
        trieFind (triePrefixIntegerMod t p inc now) k = trieFind t k) ∧
      (p.isPrefixOf k = true →
        trieFind (triePrefixIntegerMod t p inc now) k =
          (trieFind t k).map (integerModData now inc)) := by
  cases hfind : trieNodeFind t.root p with
  | none =>
    have ht' : triePrefixIntegerMod t p inc now = t := by
      simp [triePrefixIntegerMod, hfind]
    rw [ht']
    refine ⟨rfl, fun k hk => ⟨rfl, fun _ => rfl, fun hpk => ?_⟩⟩
    rw [trieFind_eq, findData_none_of_prefix hfind hpk]
    rfl
  | some m =>
    rcases snap_spec hwf hp hfind (trieNodeIntegerMod_chr now inc m) with
      ⟨_, _, hq, _⟩
    have hroot : (triePrefixIntegerMod t p inc now).root =
        setNodeAtPath t.root p (trieNodeIntegerMod now inc) := by
      simp [triePrefixIntegerMod, hfind]
    have hsize : (triePrefixIntegerMod t p inc now).size = t.size := by
      simp [triePrefixIntegerMod, hfind]
    refine ⟨hsize, fun k hk => ?_⟩
    have hq' := hq k hk
    refine ⟨?_, ?_, ?_⟩
    · simp only [present, trieFind_eq, hroot, hq']
      by_cases hpk : p.isPrefixOf k = true
      · rw [if_pos hpk, findData_integerMod, findData_drop_of_prefix hfind hpk]
        cases findData m (k.drop p.length) <;> rfl
      · rw [if_neg hpk]
    · intro hpk
      have hnpk : ¬(p.isPrefixOf k = true) := by
        rw [hpk]; exact Bool.false_ne_true
      rw [trieFind_eq, trieFind_eq, hroot, hq', if_neg hnpk]
    · intro hpk
      rw [trieFind_eq, trieFind_eq, hroot, hq', if_pos hpk,
        findData_integerMod, findData_drop_of_prefix hfind hpk]

/-- C8 witness: the spec's own scenario — `PUT key4 9` then
`INC key* (prefix)` turns the data "9" into "10" (and an item holding
"-5" would stay untouched, per `claim_c8_cex`). -/
theorem claim_c8_witness :
    wfTrie ((trieInsert trieCreate [107, 101, 121, 52] [57] 0).1) = true ∧
    validKey [107, 101, 121] = true ∧ validKey [107, 101, 121, 52] = true ∧
    intFitsAt ((trieInsert trieCreate [107, 101, 121, 52] [57] 0).1)
      [107, 101, 121] = true ∧
    trieFind (triePrefixIntegerMod
        ((trieInsert trieCreate [107, 101, 121, 52] [57] 0).1)
        [107, 101, 121] true 5) [107, 101, 121, 52] =
      (trieFind ((trieInsert trieCreate [107, 101, 121, 52] [57] 0).1)
        [107, 101, 121, 52]).map (integerModData 5 true) ∧
    (trieFind (triePrefixIntegerMod
        ((trieInsert trieCreate [107, 101, 121, 52] [57] 0).1)
        [107, 101, 121] true 5) [107, 101, 121, 52]).map NodeData.data =
      some [49, 48] :=
  ⟨by decide, by decide, by decide, by decide,
    ((@claim_c8_amended ((trieInsert trieCreate [107, 101, 121, 52] [57] 0).1)
        [107, 101, 121] true 5 (by decide) (by decide) (by decide)).2
      [107, 101, 121, 52] (by decide)).2.2 (by decide),
    by decide⟩

/-- C6 (amended): on a well-formed trie whose stored size equals its
item count, `trie_prefix_delete` of a nonempty prefix whose node
exists removes the prefix's own item (if any) and every descendant
item — afterwards a key is found iff it was found before and does not
extend the prefix, so keys that are proper prefixes of the argument
survive with their items intact — and decrements the stored size by
exactly the number of items in the prefix node's subtree.  (The
claim's further assertion that the same pruning unwind as point
delete is applied is dropped: per `claim_c6_cex`, when the prefix
node has children the `trie_delete` call runs while the children list
still has its length, so no ancestor is pruned and the emptied prefix
node itself stays behind.) -/
theorem claim_c6_amended {t : Trie} {p : List Nat} {cursor : TrieNode}
    (hwf : wfTrie t = true) (hp : validKey p = true) (hne : p ≠ [])
    (hsize : t.size = itemCount t.root)
    (hfind : trieNodeFind t.root p = some cursor) :
    (∀ k, validKey k = true →
      trieFind (triePrefixDelete t p) k =
        if p.isPrefixOf k = true then none else trieFind t k) ∧
    (triePrefixDelete t p).size = t.size - itemCount cursor ∧
    itemCount cursor ≤ t.size := by
  have hle : itemCount cursor ≤ t.size := by
    rw [hsize]; exact itemCount_find_le hfind
  by_cases hemp : cursor.children.isEmpty = true
  · have hcc : cursor.children = [] := by
      cases hcur : cursor.children with
      | nil => rfl
      | cons x xs =>
        rw [hcur] at hemp
        simp [List.isEmpty] at hemp
    cases p with
    | nil => exact absurd rfl hne
    | cons b bs =>
      have htroot : (triePrefixDelete t (b :: bs)).root =
          (trieNodeRecDelete t.root (b :: bs) t.size).1 := by
        simp [triePrefixDelete, hfind, hemp, trieDelete]
      have htsize : (triePrefixDelete t (b :: bs)).size =
          (trieNodeRecDelete t.root (b :: bs) t.size).2.1 := by
        simp [triePrefixDelete, hfind, hemp, trieDelete]
      rcases recDelete_spec (n := t.root) (s := t.size) hwf hp with
        ⟨dA, dB, dC, dD, dE, dF⟩
      refine ⟨?_, ?_, hle⟩
      · intro k hk
        rw [trieFind_eq, trieFind_eq, htroot, dF k hk]
        by_cases hpk : (b :: bs).isPrefixOf k = true
        · rw [if_pos hpk]
          by_cases hke : k = b :: bs
          · rw [if_pos hke]
          · rw [if_neg hke]
            have hdk := findData_drop_of_prefix hfind hpk
            cases hdrop : k.drop (b :: bs).length with
            | nil =>
              exfalso
              have h2 := isPrefixOf_append_drop hpk
              rw [hdrop, List.append_nil] at h2
              exact hke h2.symm
            | cons rb rbs =>
              rw [hdk, hdrop]
              cases cursor with
              | node cc cnd cch =>
                simp only [TrieNode.children] at hcc
                subst hcc
                rw [findData_cons]
                rfl
        · rw [if_neg hpk]
          have hke : k ≠ b :: bs := by
            intro hcontra
            subst hcontra
            exact hpk (List.isPrefixOf_iff_prefix.mpr (List.prefix_refl _))
          rw [if_neg hke]
      · rw [htsize, dB, findData_of_find hfind]
        cases cursor with
        | node cc cnd cch =>
          simp only [TrieNode.children] at hcc
          subst hcc
          cases cnd with
          | some d =>
            simp [TrieNode.ndata, itemCount, itemCountL]
          | none =>
            simp [TrieNode.ndata, itemCount, itemCountL]
  · have hch' : cursor.children ≠ [] := by
      intro hcontra
      rw [hcontra] at hemp
      exact hemp rfl
    have hempf : cursor.children.isEmpty = false := by
      cases hcur : cursor.children with
      | nil => exact absurd (by simp [hcur]) hemp
      | cons x xs => simp [hcur]
    cases p with
    | nil => exact absurd rfl hne
    | cons b bs =>
      have htroot : (triePrefixDelete t (b :: bs)).root =
          setNodeAtPath
            (trieNodeRecDelete t.root (b :: bs)
              (trieNodeFreeSizeL cursor.children t.size)).1
            (b :: bs) (fun n => .node n.chr n.ndata []) := by
        simp [triePrefixDelete, hfind, hempf]
      have htsize : (triePrefixDelete t (b :: bs)).size =
          (trieNodeRecDelete t.root (b :: bs)
            (trieNodeFreeSizeL cursor.children t.size)).2.1 := by
        simp [triePrefixDelete, hfind, hempf]
      rcases recDelete_as_snap
          (s := trieNodeFreeSizeL cursor.children t.size)
          (by simp) hfind hch' with ⟨e1, e2, e3, e4⟩
      have hwfcur : wfNode cursor = true := trieNodeFind_wf hwf hfind
      have hfr1 : ((fun u => TrieNode.node u.chr none u.children)
          cursor).chr = cursor.chr := rfl
      rcases snap_spec (f := fun u => TrieNode.node u.chr none u.children)
          hwf hp hfind hfr1 with ⟨s1chr, s1find, s1q, s1wf⟩
      have hwff1 : wfNode (TrieNode.node cursor.chr none cursor.children) =
          true := by
        cases cursor with
        | node cc cnd cch =>
          rw [wfNode_iff]
          exact wfNode_iff.mp hwfcur
      have hwf2 : wfNode (setNodeAtPath t.root (b :: bs)
          (fun u => TrieNode.node u.chr none u.children)) = true :=
        s1wf hwff1
      rcases snap_spec (f := fun u => TrieNode.node u.chr u.ndata [])
          hwf2 hp s1find rfl with ⟨s2chr, s2find, s2q, s2wf⟩
      refine ⟨?_, ?_, hle⟩
      · intro k hk
        rw [trieFind_eq, trieFind_eq, htroot, e1, s2q k hk]
        by_cases hpk : (b :: bs).isPrefixOf k = true
        · rw [if_pos hpk, if_pos hpk]
          refine findData_dead ?_ ?_ _
          · rfl
          · rfl
        · rw [if_neg hpk, if_neg hpk, s1q k hk, if_neg hpk]
      · rw [htsize, e2]
        have hmu : trieNodeFreeSizeL cursor.children t.size =
            t.size - itemCountL cursor.children :=
          trieNodeFreeSizeL_monus _ _
        rw [hmu]
        cases hnd : cursor.ndata with
        | some d =>
          rw [if_pos (show (some d : Option NodeData).isSome = true from rfl)]
          have hic : itemCount cursor = 1 + itemCountL cursor.children := by
            cases cursor with
            | node cc cnd cch =>
              simp only [TrieNode.ndata] at hnd
              subst hnd
              simp [itemCount, TrieNode.children]
          rw [hic]
          omega
        | none =>
          rw [if_neg (show ¬(none : Option NodeData).isSome = true by simp)]
          have hic : itemCount cursor = itemCountL cursor.children := by
            cases cursor with
            | node cc cnd cch =>
              simp only [TrieNode.ndata] at hnd
              subst hnd
              simp [itemCount, TrieNode.children]
          rw [hic]

/-- C6 witness: the spec's own scenario — keys "hello", "helloworld",
"hellot", "hel" inserted, then prefix delete of "hello": "hel" keeps
its item, "hello" and "helloworld" are gone, and the size drops by
the three items under "hello". -/
theorem claim_c6_witness :
    wfTrie c6trie = true ∧ validKey c6p = true ∧ c6p ≠ [] ∧
    c6trie.size = itemCount c6trie.root ∧
    trieNodeFind c6trie.root c6p = some c6cursor ∧
    (trieFind (triePrefixDelete c6trie c6p) [104, 101, 108] =
        (if c6p.isPrefixOf [104, 101, 108] = true then none
         else trieFind c6trie [104, 101, 108]) ∧
     trieFind (triePrefixDelete c6trie c6p) c6p =
        (if c6p.isPrefixOf c6p = true then none
         else trieFind c6trie c6p) ∧
     (triePrefixDelete c6trie c6p).size =
        c6trie.size - itemCount c6cursor) :=
  ⟨by decide, by decide, by decide, by decide, rfl,
    ((@claim_c6_amended c6trie c6p c6cursor (by decide) (by decide)
        (by decide) (by decide) rfl).1 [104, 101, 108] (by decide)),
    ((@claim_c6_amended c6trie c6p c6cursor (by decide) (by decide)
        (by decide) (by decide) rfl).1 c6p (by decide)),
    ((@claim_c6_amended c6trie c6p c6cursor (by decide) (by decide)
        (by decide) (by decide) rfl).2.1)⟩

/-- C9 (amended): on every well-formed trie, prefix enumeration
(KEYS) yields the matching full keys in ascending *signed-char*
lexicographic order — sibling iteration follows `chr` ascending as
the platform's signed `char`, so for keys whose bytes are all ≤ 0x7f
this coincides with unsigned byte-lexicographic order, while bytes
above 0x7f (negative as signed `char`) sort before them
(`claim_c9_cex`). -/
theorem claim_c9_amended {t : Trie} {p : List Nat} {l : List (List Nat)}
    (hwf : wfTrie t = true) (h : triePrefixFindKeys t p = some l) :
    ascendingBy sgnLexLe l = true := by
  cases hfind : trieNodeFind t.root p with
  | none => simp [triePrefixFindKeys, hfind] at h
  | some n =>
    have hl : l = trieNodeEnum n p := by
      simp only [triePrefixFindKeys, hfind] at h
      exact (Option.some.injEq _ _ ▸ h).symm
    subst hl
    exact ascendingBy_of_pairwise
      (trieNodeEnum_sorted n (trieNodeFind_wf hwf hfind) p)

/-- C9 witness: the two-key trie of `claim_c9_cex` enumerated from
the empty prefix is ascending in signed-char lexicographic order. -/
theorem claim_c9_witness :
    wfTrie ((trieInsert ((trieInsert trieCreate [65] [118] 0).1)
      [128] [119] 0).1) = true ∧
    triePrefixFindKeys ((trieInsert ((trieInsert trieCreate [65] [118] 0).1)
      [128] [119] 0).1) [] = some [[128], [65]] ∧
    ascendingBy sgnLexLe [[128], [65]] = true :=
  ⟨by decide, by decide,
    @claim_c9_amended
      ((trieInsert ((trieInsert trieCreate [65] [118] 0).1) [128] [119] 0).1)
      [] [[128], [65]] (by decide) (by decide)⟩

/-- C6 counterexample: in the trie holding only key "ab"
(bytes [97, 98]), `trie_prefix_delete` of prefix "a" does not apply
point delete's pruning unwind: point-deleting the only key "ab"
leaves a trie with no dead nodes (the chain a–b is pruned away), but
prefix-deleting "a" — whose node has a child, so the children are
destroyed before `trie_delete` runs and the children list is only
cleared afterwards — leaves the now item-less, child-less node "a"
dangling under the root. -/
theorem claim_c6_cex :
    anyDead ((trieInsert trieCreate [97, 98] [120] 0).1).root = false ∧
    anyDead ((trieDelete (trieInsert trieCreate [97, 98] [120] 0).1
      [97, 98]).1).root = false ∧
    anyDead (triePrefixDelete (trieInsert trieCreate [97, 98] [120] 0).1
      [97]).root = true := by
  decide

/-- C8 counterexample: an item whose data is "-5" (bytes [45, 53]),
the decimal textual representation of the signed integer -5, is left
untouched by `trie_prefix_inc` — `is_integer` rejects the minus sign
— instead of being replaced by "-4" (bytes [45, 52]) as the claim
requires. -/
theorem claim_c8_cex :
    (trieFind (triePrefixIntegerMod
        (trieInsert trieCreate [107] [45, 53] 0).1 [107] true 5)
      [107]).map NodeData.data = some [45, 53] ∧
    (trieFind (triePrefixIntegerMod
        (trieInsert trieCreate [107] [45, 53] 0).1 [107] true 5)
      [107]).map NodeData.data ≠ some [45, 52] := by
  decide

/-- C9 counterexample: with keys "A" (byte 65) and byte 0x80 = 128
both inserted, enumeration from the empty prefix yields
[[128], [65]] — the child comparison reads the stored bytes as
signed `char`s, so byte 128 (signed value -128) sorts first — which
is not ascending byte-lexicographic order as unsigned bytes. -/
theorem claim_c9_cex :
    triePrefixFindKeys
        ((trieInsert ((trieInsert trieCreate [65] [118] 0).1) [128] [119] 0).1)
        [] = some [[128], [65]] ∧
    ascendingBy byteLexLe [[128], [65]] = false := by
  decide

end Tritedb
